import Mathlib

/-!
nightreign-overlay-helper: configuration store, logger, path resolver and
atomic writer.

A shallow embedding of the Go sources (`pkg/utils`, `pkg/version`,
`internal/config`, `internal/logger`) together with theorems about them.
Go `string` is `String`, Go `int` is `Int`, a Go `error` is an
`Option GoError` (`none` is `nil`), a `time.Time` is a number, a `float64` is
the number it stands for with every operation rounded as IEEE 754 rounds it,
and a function that changes the filesystem or the package variables returns
the new state next to its results.
-/

set_option autoImplicit false

/-! ## pkg/version -/

namespace version

/-- The constant `AppName` of `pkg/version/version.go`. -/
def AppName : String := "nightreign-overlay-helper"

end version

/-! ## float64

A finite `float64` is kept as sign, mantissa and exponent: it stands for
`± mant * 2 ^ exp`.  Every operation computes the exact result and rounds it
to the nearest `float64`, ties to the even mantissa.  Results beyond the
largest finite `float64` are not modelled; none occurs in this program. -/

namespace float64

/-- A finite `float64`. -/
structure Value where
  neg : Bool
  mant : Nat
  exp : Int
  deriving DecidableEq

/-- The position of the leading bit of `n`: the largest `e` with
`2 ^ e ≤ n`, for `n ≥ 1` below `2 ^ fuel`. -/
def log2Floor : Nat → Nat → Nat
  | 0, _ => 0
  | fuel + 1, n => if n < 2 then 0 else log2Floor fuel (n / 2) + 1

/-- The least `k` with `b ≤ a * 2 ^ k`, for `a ≥ 1` and `k` below `fuel`. -/
def shiftUp : Nat → Nat → Nat → Nat
  | 0, _, _ => 0
  | fuel + 1, a, b => if b ≤ a then 0 else shiftUp fuel (2 * a) b + 1

/-- The integer nearest to the fraction `num / den` (`den ≥ 1`), the even
one of the two when it lies half way. -/
def nearest (num den : Nat) : Nat :=
  if den < 2 * (num % den) ∨ (2 * (num % den) = den ∧ num / den % 2 = 1) then num / den + 1
  else num / den

/-- The `float64` nearest to the fraction `a / b` (`b ≥ 1`), with the sign
given: the exponent of the leading bit is found, the mantissa is the fraction
scaled to 53 bits and rounded to the nearest integer, ties to even.  Below
`2 ^ -1022` the spacing stays that of the smallest normal numbers. -/
def round (neg : Bool) (a b : Nat) : Value :=
  if a = 0 then ⟨false, 0, 0⟩
  else
    let e : Int := if b ≤ a then (log2Floor 1100 (a / b) : Int) else - (shiftUp 1100 a b : Int)
    let e := max e (-1022)
    let p : Int := 52 - e
    let num := if 0 ≤ p then a * 2 ^ p.toNat else a
    let den := if 0 ≤ p then b else b * 2 ^ (-p).toNat
    ⟨neg, nearest num den, e - 52⟩

/-- The conversion `float64(i)` of an integer. -/
def ofInt (i : Int) : Value := round (decide (i < 0)) i.natAbs 1

/-- The mantissa with its sign. -/
def signed (x : Value) : Int := if x.neg then - (x.mant : Int) else x.mant

/-- The quotient `x / y` of two `float64` (`y` not zero). -/
def div (x y : Value) : Value :=
  let d := x.exp - y.exp
  round (x.neg != y.neg) (if 0 ≤ d then x.mant * 2 ^ d.toNat else x.mant)
    (if 0 ≤ d then y.mant else y.mant * 2 ^ (-d).toNat)

/-- The sum `x + y` of two `float64`. -/
def add (x y : Value) : Value :=
  let e := min x.exp y.exp
  let s : Int := signed x * 2 ^ (x.exp - e).toNat + signed y * 2 ^ (y.exp - e).toNat
  round (decide (s < 0)) (if 0 ≤ e then s.natAbs * 2 ^ e.toNat else s.natAbs)
    (if 0 ≤ e then 1 else 2 ^ (-e).toNat)

/-- The conversion `int(x)` of a `float64`: the fraction is dropped. -/
def toInt (x : Value) : Int :=
  let n : Nat := if 0 ≤ x.exp then x.mant * 2 ^ x.exp.toNat else x.mant / 2 ^ (-x.exp).toNat
  if x.neg then - (n : Int) else n

end float64

/-! ## time -/

namespace time

/-- The method `Seconds` of `time.Duration` (a count of nanoseconds):
`sec := d / Second; nsec := d % Second;
return float64(sec) + float64(nsec)/1e9`. -/
def Seconds (d : Int) : float64.Value :=
  let sec := d.tdiv 1000000000
  let nsec := d.tmod 1000000000
  float64.add (float64.ofInt sec) (float64.div (float64.ofInt nsec) (float64.ofInt 1000000000))

end time

/-! ## pkg/utils/time.go -/

namespace utils

/-- The decimal digit character of a number below ten. -/
def digitChar (n : Nat) : Char := Char.ofNat (48 + n)

/-- The decimal digits of `n`, most significant first; `fuel` bounds the
number of digits and `n + 1` is always enough. -/
def decDigits : Nat → Nat → List Char
  | 0, _ => []
  | fuel + 1, n =>
    if n < 10 then [digitChar n] else decDigits fuel (n / 10) ++ [digitChar (n % 10)]

/-- What `fmt.Sprintf("%d", n)` prints for a non-negative `n`. -/
def formatNat (n : Nat) : String := String.mk (decDigits (n + 1) n)

/-- What `fmt.Sprintf("%d", i)` prints for a Go `int`. -/
def formatInt : Int → String
  | Int.ofNat n => formatNat n
  | Int.negSucc n => "-" ++ formatNat (n + 1)

/-- `GetReadableTimeDelta` of `pkg/utils/time.go`; `d` is the duration in
nanoseconds.  Go's `/` and `%` on `int` truncate toward zero. -/
def GetReadableTimeDelta (d : Int) : String :=
  let seconds := float64.toInt (time.Seconds d)
  let minutes := seconds.tdiv 60
  let seconds := seconds.tmod 60
  let hours := minutes.tdiv 60
  let minutes := minutes.tmod 60
  if hours > 0 then
    formatInt hours ++ "小时" ++ formatInt minutes ++ "分钟" ++ formatInt seconds ++ "秒"
  else if minutes > 0 then
    formatInt minutes ++ "分钟" ++ formatInt seconds ++ "秒"
  else
    formatInt seconds ++ "秒"

/-- Reads a rendered time delta back: every run of digits is a number, and the
unit character that follows it says what the number counts (`小`时 hours,
`分`钟 minutes, `秒` seconds).  The result is the total in seconds. -/
def readUnits : List Char → Nat → Nat → Nat
  | [], total, _ => total
  | c :: cs, total, acc =>
    if c.isDigit then readUnits cs total (acc * 10 + (c.toNat - 48))
    else if c = '小' then readUnits cs (total + acc * 3600) 0
    else if c = '分' then readUnits cs (total + acc * 60) 0
    else if c = '秒' then readUnits cs (total + acc) 0
    else readUnits cs total acc

/-- The number of seconds a rendered time delta stands for. -/
def printedSeconds (s : String) : Nat := readUnits s.data 0 0

end utils

/-! ## path/filepath (Unix flavour), as far as this program uses it

A path is cleaned lexically, element by element, the way `filepath.Clean`
does: empty and `.` elements are dropped, a `..` element removes the element
written before it when there is one to remove. -/

namespace filepath

/-- Puts a character in front of the first element of a split path. -/
def consHead (c : Char) : List (List Char) → List (List Char)
  | [] => [[c]]
  | h :: t => (c :: h) :: t

/-- The elements of a path: the text between its separators. -/
def splitSep : List Char → List (List Char)
  | [] => [[]]
  | c :: cs => if c = '/' then [] :: splitSep cs else consHead c (splitSep cs)

/-- The elements written back with one separator between them
(`strings.Join(elems, "/")`). -/
def joinSep : List (List Char) → List Char
  | [] => []
  | [e] => e
  | e :: es => e ++ '/' :: joinSep es

/-- Whether the written elements end in one that `..` may remove
(`out.w > dotdot` in `Clean`): the last one written is not itself `..`. -/
def canBacktrack : List (List Char) → Bool
  | [] => false
  | top :: _ => decide (top ≠ ['.', '.'])

/-- One round of the loop of `Clean`: `out` holds the elements written so
far, the last one first. -/
def cleanStep (rooted : Bool) (out : List (List Char)) (e : List Char) : List (List Char) :=
  if e = [] then out
  else if e = ['.'] then out
  else if e = ['.', '.'] then
    if canBacktrack out then out.tail
    else if !rooted then ['.', '.'] :: out
    else out
  else e :: out

/-- Whether the path starts with a separator. -/
def isRooted : List Char → Bool
  | c :: _ => decide (c = '/')
  | [] => false

/-- The elements `Clean` keeps, the last one first. -/
def cleanElems (path : List Char) : List (List Char) :=
  (splitSep path).foldl (cleanStep (isRooted path)) []

/-- The text `Clean` returns for the kept elements: `/` in front of a rooted
path, `.` in place of an empty result. -/
def render (rooted : Bool) (out : List (List Char)) : List Char :=
  if rooted then '/' :: joinSep out.reverse
  else if out = [] then ['.']
  else joinSep out.reverse

/-- `filepath.Clean`. -/
def Clean (path : String) : String :=
  if path = "" then "."
  else String.mk (render (isRooted path.data) (cleanElems path.data))

/-- `filepath.Join`: the elements from the first non-empty one on, joined by
separators and cleaned; the empty string when every element is empty. -/
def Join (elem : List String) : String :=
  match elem.dropWhile (fun e => decide (e = "")) with
  | [] => ""
  | rest => Clean (String.mk (joinSep (rest.map String.data)))

/-- An element `Clean` writes as it is: not empty, not `.`, not `..`, and
without a separator. -/
def Plain (e : List Char) : Prop := e ≠ [] ∧ e ≠ ['.'] ∧ e ≠ ['.', '.'] ∧ '/' ∉ e

/-- What the elements `Clean` has written look like, the last one first:
plain elements, on top of `..` elements when the path is not rooted. -/
def Canon (rooted : Bool) : List (List Char) → Prop
  | [] => True
  | top :: rest =>
    Canon rooted rest ∧
      (Plain top ∨ (top = ['.', '.'] ∧ rooted = false ∧ canBacktrack rest = false))

/-- The part of a path up to and including its last separator
(`path[:i+1]` in `Dir`). -/
def upToLastSep (path : List Char) : List Char :=
  ((path.reverse).dropWhile (fun c => decide (c ≠ '/'))).reverse

/-- `filepath.Dir`. -/
def Dir (path : String) : String := Clean (String.mk (upToLastSep path.data))

/-- A path without the separators it ends in. -/
def dropTrailingSep (path : List Char) : List Char :=
  ((path.reverse).dropWhile (fun c => decide (c = '/'))).reverse

end filepath

/-! ## The operating system, as far as this program uses it

A filesystem is a tree of directories whose leaves are file names and
symbolic links.  An entry is named by its key: the names from the root down
to it, the last one first.  A file name points to an inode, which holds the
content, so that two names can share one file (hard links).  A path is
resolved the way the system does it: element by element through the
directories that are there, `..` being the parent of the directory reached,
symbolic links followed.  Failures the program cannot rule out are part of
the state: `denied` marks the entries the system refuses to open, create,
replace or unlink, and `free` is the room left for file data, so that a write
may stop half way. -/

/-- A Go `error` value that is not `nil`. -/
inductive GoError
  | ENOENT
  | ENOTDIR
  | EISDIR
  | EEXIST
  | EACCES
  | ENOSPC
  | ENOTEMPTY
  | ENOTSUP
  | ELOOP
  | yaml (msg : String)
  deriving DecidableEq

namespace os

/-- The key of an entry: the names from the root down to it, the last one
first.  The root is `[]`. -/
abbrev Key := List (List Char)

/-- What a name in a directory stands for: a directory, a file (by its
inode number) or a symbolic link. -/
inductive Entry
  | dir (modTime : Nat)
  | file (ino : Nat)
  | symlink (target : String)
  deriving DecidableEq

/-- The state of the filesystem: the entries, the content and modification
time of every inode, the next inode number to hand out, and the working
directory of the process. -/
structure FS where
  entries : Key → Option Entry
  files : Nat → String × Nat
  nextIno : Nat
  cwd : Key
  denied : Key → Bool
  free : Nat
  clock : Nat

/-- The entry at a key, if any; the root is always there. -/
def FS.lookup (fs : FS) (k : Key) : Option Entry :=
  if k = [] then some (Entry.dir 0) else fs.entries k

/-- The filesystem with the entry at `k` replaced. -/
def FS.setEntry (fs : FS) (k : Key) (e : Option Entry) : FS :=
  { fs with entries := fun q => if q = k then e else fs.entries q }

/-- Where one element of a path leads from the directory `k`, by name
alone. -/
def lexStep (k : Key) (c : List Char) : Key :=
  if c = [] ∨ c = ['.'] then k
  else if c = ['.', '.'] then k.tail
  else c :: k

/-- Where the elements of a path lead from the directory `k`, by name
alone. -/
def lexKey (k : Key) (comps : List (List Char)) : Key := comps.foldl lexStep k

/-- Every element of the path is looked up in a directory that is there. -/
def AllDirs (fs : FS) : Key → List (List Char) → Prop
  | _, [] => True
  | k, c :: rest => (∃ t, fs.lookup k = some (Entry.dir t)) ∧ AllDirs fs (lexStep k c) rest

/-- How a walk along a path ends: at a key, with what is there (nothing, when
the path names an entry that does not exist in a directory that does); at a
symbolic link that has to be followed from the directory `dir` before the
elements `rest`; or with an error. -/
inductive Walk
  | found (k : Key) (e : Option Entry)
  | link (dir : Key) (target : String) (rest : List (List Char))
  | fail (err : GoError)
  deriving DecidableEq

/-- A walk from the directory `cur` along the elements of a path, up to the
first symbolic link.  Every element is looked up in a directory; an empty
element and `.` stay, `..` goes to the parent.  A symbolic link in the last
place is not followed when `follow` is off. -/
def walk (fs : FS) (follow : Bool) : Key → List (List Char) → Walk
  | cur, [] => Walk.found cur (fs.lookup cur)
  | cur, c :: rest =>
    match fs.lookup cur with
    | none => Walk.fail GoError.ENOENT
    | some (Entry.file _) => Walk.fail GoError.ENOTDIR
    | some (Entry.symlink _) => Walk.fail GoError.ENOTDIR
    | some (Entry.dir _) =>
      if c = [] ∨ c = ['.'] then walk fs follow cur rest
      else if c = ['.', '.'] then walk fs follow cur.tail rest
      else
        match fs.lookup (c :: cur) with
        | some (Entry.symlink t) =>
          if rest = [] ∧ follow = false then Walk.found (c :: cur) (some (Entry.symlink t))
          else Walk.link cur t rest
        | _ => walk fs follow (c :: cur) rest

/-- A walk that follows symbolic links, `links` of them at most. -/
def resolveFrom (fs : FS) (follow : Bool) : Nat → Key → List (List Char) → Walk
  | 0, cur, comps =>
    match walk fs follow cur comps with
    | Walk.link _ _ _ => Walk.fail GoError.ELOOP
    | r => r
  | links + 1, cur, comps =>
    match walk fs follow cur comps with
    | Walk.link dir t rest =>
      if t = "" then Walk.fail GoError.ENOENT
      else
        resolveFrom fs follow links (if filepath.isRooted t.data then [] else dir)
          (filepath.splitSep t.data ++ rest)
    | r => r

/-- Where the resolution of a path starts: the root for a rooted path, else
the working directory. -/
def FS.start (fs : FS) (path : String) : Key :=
  if filepath.isRooted path.data then [] else fs.cwd

/-- The entry a path names; the system follows forty symbolic links at
most. -/
def resolve (fs : FS) (follow : Bool) (path : String) : Walk :=
  resolveFrom fs follow 40 (fs.start path) (filepath.splitSep path.data)

/-- The content of the regular file at `path`; `none` when no regular file
is there. -/
def FS.fileAt (fs : FS) (path : String) : Option String :=
  match resolve fs true path with
  | Walk.found _ (some (Entry.file i)) => some (fs.files i).1
  | _ => none

/-- What `os.Stat` returns on success, as far as it is used. -/
structure FileInfo where
  ModTime : Nat
  IsDir : Bool
  deriving DecidableEq

/-- The information on an entry. -/
def FS.infoOf (fs : FS) : Entry → FileInfo
  | Entry.dir t => ⟨t, true⟩
  | Entry.file i => ⟨(fs.files i).2, false⟩
  | Entry.symlink _ => ⟨0, false⟩

/-- `os.Stat` (`follow` on) and `os.Lstat` (`follow` off). -/
def statWith (fs : FS) (follow : Bool) (name : String) : Except GoError FileInfo :=
  if name = "" then Except.error GoError.ENOENT
  else
    match resolve fs follow name with
    | Walk.found _ (some e) => Except.ok (fs.infoOf e)
    | Walk.found _ none => Except.error GoError.ENOENT
    | Walk.link _ _ _ => Except.error GoError.ELOOP
    | Walk.fail err => Except.error err

/-- `os.Stat`. -/
def Stat (fs : FS) (name : String) : Except GoError FileInfo := statWith fs true name

/-- `os.Lstat`. -/
def Lstat (fs : FS) (name : String) : Except GoError FileInfo := statWith fs false name

/-- `os.ReadFile`. -/
def ReadFile (fs : FS) (name : String) : Except GoError String :=
  if name = "" then Except.error GoError.ENOENT
  else
    match resolve fs true name with
    | Walk.found k (some (Entry.file i)) =>
      if fs.denied k then Except.error GoError.EACCES else Except.ok (fs.files i).1
    | Walk.found _ (some (Entry.dir _)) => Except.error GoError.EISDIR
    | Walk.found _ (some (Entry.symlink _)) => Except.error GoError.ELOOP
    | Walk.found _ none => Except.error GoError.ENOENT
    | Walk.link _ _ _ => Except.error GoError.ELOOP
    | Walk.fail err => Except.error err

/-- `os.Mkdir`: the separators the name ends in are not looked at, a
symbolic link in the last place is not followed. -/
def Mkdir (fs : FS) (name : String) : FS × Option GoError :=
  if name = "" then (fs, some GoError.ENOENT)
  else
    match resolveFrom fs false 40 (fs.start name)
        (filepath.splitSep (filepath.dropTrailingSep name.data)) with
    | Walk.found k none =>
      if fs.denied k then (fs, some GoError.EACCES)
      else (fs.setEntry k (some (Entry.dir fs.clock)), none)
    | Walk.found _ (some _) => (fs, some GoError.EEXIST)
    | Walk.link _ _ _ => (fs, some GoError.ELOOP)
    | Walk.fail err => (fs, some err)

/-- The parent `path[:i+1]` that `MkdirAll` recurses on: the path without
its last element, the separator before it kept. -/
def parentOf (path : String) : String :=
  String.mk (filepath.upToLastSep (filepath.dropTrailingSep path.data))

/-- `os.MkdirAll`, as the library writes it: nothing to do when `Stat` finds
a directory, an error when it finds something else; otherwise the parent
first, then `Mkdir`, whose failure is forgiven when `Lstat` finds a
directory.  `fuel` bounds the depth of the recursion. -/
def mkdirAll (fs : FS) : Nat → String → FS × Option GoError
  | 0, _ => (fs, some GoError.ELOOP)
  | fuel + 1, path =>
    match Stat fs path with
    | Except.ok info => if info.IsDir then (fs, none) else (fs, some GoError.ENOTDIR)
    | Except.error _ =>
      match (if parentOf path ≠ "" then mkdirAll fs fuel (parentOf path) else (fs, none)) with
      | (fs1, some err) => (fs1, some err)
      | (fs1, none) =>
        match Mkdir fs1 path with
        | (fs2, none) => (fs2, none)
        | (fs2, some err) =>
          match Lstat fs2 path with
          | Except.ok info => if info.IsDir then (fs2, none) else (fs2, some err)
          | Except.error _ => (fs2, some err)

/-- `os.MkdirAll`: the parent of a path is shorter than the path, so the
length of the path bounds the recursion. -/
def MkdirAll (fs : FS) (path : String) : FS × Option GoError :=
  mkdirAll fs (path.length + 1) path

/-- Writing `data` into the inode `i`, truncated first: when the data does
not fit, what fits stays in the file and the call fails. -/
def writeData (fs : FS) (i : Nat) (data : String) : FS × Option GoError :=
  if data.length ≤ fs.free then
    ({ fs with files := fun j => if j = i then (data, fs.clock) else fs.files j,
               free := fs.free - data.length }, none)
  else
    ({ fs with files := fun j =>
                 if j = i then (String.mk (data.data.take fs.free), fs.clock) else fs.files j,
               free := 0 }, some GoError.ENOSPC)

/-- `os.WriteFile`: opens the file the name leads to, symbolic links
followed, creating it when it is not there and truncating it when it is, then
writes. -/
def WriteFile (fs : FS) (name : String) (data : String) : FS × Option GoError :=
  if name = "" then (fs, some GoError.ENOENT)
  else
    match resolve fs true name with
    | Walk.found k (some (Entry.file i)) =>
      if fs.denied k then (fs, some GoError.EACCES) else writeData fs i data
    | Walk.found k none =>
      if fs.denied k then (fs, some GoError.EACCES)
      else
        writeData
          { fs.setEntry k (some (Entry.file fs.nextIno)) with nextIno := fs.nextIno + 1 }
          fs.nextIno data
    | Walk.found _ (some (Entry.dir _)) => (fs, some GoError.EISDIR)
    | Walk.found _ (some (Entry.symlink _)) => (fs, some GoError.ELOOP)
    | Walk.link _ _ _ => (fs, some GoError.ELOOP)
    | Walk.fail err => (fs, some err)

/-- Whether the two entries are names of one file. -/
def sameFile : Entry → Option Entry → Bool
  | Entry.file i, some (Entry.file j) => decide (i = j)
  | _, _ => false

/-- `os.Rename` of a file name or a symbolic link: all or nothing, and
neither name is followed when it is a symbolic link.  Two names of one file
are left as they are.  Renaming a directory is not part of the model and is
refused. -/
def Rename (fs : FS) (oldpath newpath : String) : FS × Option GoError :=
  if oldpath = "" ∨ newpath = "" then (fs, some GoError.ENOENT)
  else
    match resolve fs false oldpath with
    | Walk.fail err => (fs, some err)
    | Walk.link _ _ _ => (fs, some GoError.ELOOP)
    | Walk.found _ none => (fs, some GoError.ENOENT)
    | Walk.found _ (some (Entry.dir _)) => (fs, some GoError.ENOTSUP)
    | Walk.found ko (some eo) =>
      match resolve fs false newpath with
      | Walk.fail err => (fs, some err)
      | Walk.link _ _ _ => (fs, some GoError.ELOOP)
      | Walk.found _ (some (Entry.dir _)) => (fs, some GoError.EISDIR)
      | Walk.found kn en =>
        if fs.denied ko || fs.denied kn then (fs, some GoError.EACCES)
        else if ko = kn then (fs, none)
        else if sameFile eo en then (fs, none)
        else ((fs.setEntry kn (some eo)).setEntry ko none, none)

/-- `os.Remove` of a file name or a symbolic link, which is not followed.
Removing a directory is not part of the model and is refused. -/
def Remove (fs : FS) (name : String) : FS × Option GoError :=
  if name = "" then (fs, some GoError.ENOENT)
  else
    match resolve fs false name with
    | Walk.fail err => (fs, some err)
    | Walk.link _ _ _ => (fs, some GoError.ELOOP)
    | Walk.found _ none => (fs, some GoError.ENOENT)
    | Walk.found _ (some (Entry.dir _)) => (fs, some GoError.ENOTEMPTY)
    | Walk.found k (some _) =>
      if fs.denied k then (fs, some GoError.EACCES) else (fs.setEntry k none, none)

/-- `os.OpenFile(name, O_CREATE|O_WRONLY|O_APPEND, perm)`, as far as the
filesystem sees it: the file is created empty when it is not there. -/
def OpenFileAppend (fs : FS) (name : String) : FS × Option GoError :=
  if name = "" then (fs, some GoError.ENOENT)
  else
    match resolve fs true name with
    | Walk.found k (some (Entry.file _)) =>
      if fs.denied k then (fs, some GoError.EACCES) else (fs, none)
    | Walk.found k none =>
      if fs.denied k then (fs, some GoError.EACCES)
      else
        ({ fs.setEntry k (some (Entry.file fs.nextIno)) with
            files := fun j => if j = fs.nextIno then ("", fs.clock) else fs.files j,
            nextIno := fs.nextIno + 1 }, none)
    | Walk.found _ (some (Entry.dir _)) => (fs, some GoError.EISDIR)
    | Walk.found _ (some (Entry.symlink _)) => (fs, some GoError.ELOOP)
    | Walk.link _ _ _ => (fs, some GoError.ELOOP)
    | Walk.fail err => (fs, some err)

/-- `os.Getenv`: the value of the variable, empty when it is not set. -/
def Getenv (env : String → Option String) (key : String) : String := (env key).getD ""

/-- What every state of a filesystem satisfies: an entry lives in a
directory, the working directory is a directory, and the inode numbers in
use are below the next one to hand out. -/
structure FS.WellFormed (fs : FS) : Prop where
  parentDir : ∀ c k, fs.lookup (c :: k) ≠ none → ∃ t, fs.lookup k = some (Entry.dir t)
  cwdDir : ∃ t, fs.lookup fs.cwd = some (Entry.dir t)
  fresh : ∀ k i, fs.lookup k = some (Entry.file i) → i < fs.nextIno

/-- The filesystem holds no symbolic link. -/
def FS.NoSymlinks (fs : FS) : Prop := ∀ k t, fs.lookup k ≠ some (Entry.symlink t)

/-- The entry of a key in a table of entries: the first one listed. -/
def find : List (Key × Entry) → Key → Option Entry
  | [], _ => none
  | (k, e) :: rest, q => if q = k then some e else find rest q

end os

/-! ## gopkg.in/yaml.v3 -/

namespace yaml

/-- The two functions of the YAML library the program calls, for the type
`α` of the value: any pair of functions will do. -/
structure Codec (α : Type) where
  Marshal : α → Except GoError String
  Unmarshal : String → Except GoError α

end yaml

/-! ## pkg/utils/yaml.go and pkg/utils/path.go -/

namespace utils

/-- `SaveYAML` of `pkg/utils/yaml.go`: returns the filesystem it leaves and
the error. -/
def SaveYAML {α : Type} (codec : yaml.Codec α) (fs : os.FS) (path : String) (data : α) :
    os.FS × Option GoError :=
  let dir := filepath.Dir path
  match os.MkdirAll fs dir with
  | (fs1, some err) => (fs1, some err)
  | (fs1, none) =>
    let tmpPath := path ++ ".tmp"
    match codec.Marshal data with
    | Except.error err => (fs1, some err)
    | Except.ok yamlData =>
      match os.WriteFile fs1 tmpPath yamlData with
      | (fs2, some err) => (fs2, some err)
      | (fs2, none) =>
        match os.Rename fs2 tmpPath path with
        | (fs3, some err) => ((os.Remove fs3 tmpPath).1, some err)
        | (fs3, none) => (fs3, none)

/-- The directory `GetAppDataPath` settles on, from the environment. -/
def appDataDir (env : String → Option String) : String :=
  if os.Getenv env "APPDATA" ≠ "" then
    filepath.Join [os.Getenv env "APPDATA", version.AppName]
  else if os.Getenv env "HOME" ≠ "" then
    filepath.Join [os.Getenv env "HOME", ".local", "share", version.AppName]
  else
    version.AppName

/-- `GetAppDataPath` of `pkg/utils/path.go`: returns the filesystem it
leaves, the path and the error. -/
def GetAppDataPath (env : String → Option String) (fs : os.FS) (filename : String) :
    os.FS × String × Option GoError :=
  match os.MkdirAll fs (appDataDir env) with
  | (fs1, some err) => (fs1, "", some err)
  | (fs1, none) => (fs1, filepath.Join [appDataDir env, filename], none)

end utils

/-! ## internal/config -/

namespace config

/-- The package variables of `config.go`.  `globalConfig` is a pointer: the
index of the record in the heap, `none` for `nil`. -/
structure Store where
  globalConfig : Option Nat
  configPath : String
  lastModTime : Nat
  deriving DecidableEq

/-- The package variables when the program starts. -/
def Store.initial : Store := ⟨none, "config.yaml", 0⟩

/-- A call into the operating system or the YAML library. -/
inductive Call
  | Stat (name : String)
  | ReadFile (name : String)
  | Unmarshal (data : String)
  deriving DecidableEq

/-- What `Load` and `Get` return, with the heap they leave (a successful
`Load` allocates one record) and the calls they made, in order. -/
structure Result (Config : Type) where
  cfg : Option Nat
  err : Option GoError
  heap : List Config
  calls : List Call

/-- `Load` of `loader.go`. -/
def Load {Config : Type} (codec : yaml.Codec Config) (fs : os.FS) (heap : List Config)
    (path : String) : Result Config :=
  match os.ReadFile fs path with
  | Except.error err => ⟨none, some err, heap, [Call.ReadFile path]⟩
  | Except.ok data =>
    match codec.Unmarshal data with
    | Except.error err => ⟨none, some err, heap, [Call.ReadFile path, Call.Unmarshal data]⟩
    | Except.ok cfg =>
      ⟨some heap.length, none, heap ++ [cfg], [Call.ReadFile path, Call.Unmarshal data]⟩

/-- `Save` of `loader.go`; `cfg` is the record the pointer points to. -/
def Save {Config : Type} (codec : yaml.Codec Config) (fs : os.FS) (path : String)
    (cfg : Config) : os.FS × Option GoError :=
  match codec.Marshal cfg with
  | Except.error err => (fs, some err)
  | Except.ok data =>
    let tmpPath := path ++ ".tmp"
    match os.WriteFile fs tmpPath data with
    | (fs1, some err) => (fs1, some err)
    | (fs1, none) =>
      match os.Rename fs1 tmpPath path with
      | (fs2, some err) => ((os.Remove fs2 tmpPath).1, some err)
      | (fs2, none) => (fs2, none)

/-- `Get` of `config.go`: the result and the package variables it leaves.
The mutex is taken on entry and released on return; nothing in between
takes it again. -/
def Get {Config : Type} (codec : yaml.Codec Config) (fs : os.FS) (st : Store)
    (heap : List Config) : Result Config × Store :=
  match os.Stat fs st.configPath with
  | Except.error err => (⟨none, some err, heap, [Call.Stat st.configPath]⟩, st)
  | Except.ok info =>
    let modTime := info.ModTime
    if st.globalConfig = none ∨ modTime ≠ st.lastModTime then
      let r := Load codec fs heap st.configPath
      match r.err with
      | some err => (⟨none, some err, r.heap, Call.Stat st.configPath :: r.calls⟩, st)
      | none =>
        (⟨r.cfg, none, r.heap, Call.Stat st.configPath :: r.calls⟩,
          { st with globalConfig := r.cfg, lastModTime := modTime })
    else
      (⟨st.globalConfig, none, heap, [Call.Stat st.configPath]⟩, st)

/-- How many times the file was read among the calls. -/
def reads (calls : List Call) : Nat :=
  calls.countP (fun c => match c with | Call.ReadFile _ => true | _ => false)

/-- `SetConfigPath` of `config.go`. -/
def SetConfigPath (path : String) (st : Store) : Store :=
  { st with configPath := path, globalConfig := none }

end config

/-! ## internal/logger -/

namespace logger

/-- The type `Level` of `logger.go`: a Go `int`. -/
abbrev Level := Int

/-- Level `DEBUG`. -/
def DEBUG : Level := 0

/-- Level `INFO`. -/
def INFO : Level := 1

/-- Level `WARNING`. -/
def WARNING : Level := 2

/-- Level `ERROR`. -/
def ERROR : Level := 3

/-- Level `CRITICAL`. -/
def CRITICAL : Level := 4

/-- The map `levelNames`: a level that is not a key gives the empty string. -/
def levelNames (level : Level) : String :=
  if level = DEBUG then "DEBUG"
  else if level = INFO then "INFO"
  else if level = WARNING then "WARNING"
  else if level = ERROR then "ERROR"
  else if level = CRITICAL then "CRITICAL"
  else ""

/-- An `io.Writer` a logger writes to. -/
inductive Writer
  | stdout
  | file (name : String)
  | other (id : Nat)
  deriving DecidableEq

/-- One call of `Write`: the writer, the bytes it was given, and whether the
call returned an error. -/
structure WriteCall where
  writer : Writer
  bytes : String
  failed : Bool
  deriving DecidableEq

/-- The type `Logger` of `logger.go`.  Its mutex is taken in `log` alone,
which calls nothing that takes it. -/
structure Logger where
  level : Level
  writers : List Writer
  deriving DecidableEq

/-- The package variables of `logger.go`; `loggerMu` says whether the mutex
is held. -/
structure Global where
  globalLogger : Option Logger
  loggerMu : Bool
  deriving DecidableEq

/-- What the logger sees of the world around it: the filesystem, the
environment variables, the writers whose `Write` fails, the calls of `Write`
made so far, the current time in the two layouts the logger formats it in
(`2006-01-02` and `2006-01-02 15:04:05`), and what `runtime.Stack`
returns. -/
structure World where
  fs : os.FS
  env : String → Option String
  broken : Writer → Bool
  written : List WriteCall
  date : String
  timestamp : String
  stack : String

/-- How a call ends: it returns, it blocks forever on a mutex the caller
already holds, or it panics. -/
inductive Outcome (α : Type)
  | returned (a : α)
  | deadlock
  | panic

/-- The method `Write` of a writer: the call is recorded; its error is
returned to the caller. -/
def Writer.Write (wr : Writer) (bytes : String) (w : World) : World × Option GoError :=
  ({ w with written := w.written ++ [⟨wr, bytes, w.broken wr⟩] },
    if w.broken wr then some GoError.EACCES else none)

/-- The loop `for _, w := range l.writers { w.Write([]byte(msg)) }`: the
result of each `Write` is dropped. -/
def writeAll (writers : List Writer) (bytes : String) (w : World) : World :=
  writers.foldl (fun acc wr => (wr.Write bytes acc).1) w

/-- `getStackTrace` of `logger.go`. -/
def getStackTrace (w : World) : String := w.stack

/-- The method `log` of `logger.go`. -/
def Logger.log (l : Logger) (level : Level) (msg : String) (includeTrace : Bool)
    (w : World) : World :=
  if level < l.level then w
  else
    let timestamp := w.timestamp
    let levelName := levelNames level
    let logMsg := timestamp ++ " [" ++ levelName ++ "] " ++ msg ++ "\n"
    let w1 := writeAll l.writers logMsg w
    if includeTrace && decide (level ≥ ERROR) then
      let trace := getStackTrace w1
      let traceMsg := timestamp ++ " [" ++ levelName ++ "] " ++ trace ++ "\n"
      writeAll l.writers traceMsg w1
    else w1

/-- The body of `Setup`, run with the mutex held. -/
def setupLocked (level : Level) (g : Global) (w : World) :
    (Option Logger × Option GoError) × Global × World :=
  match g.globalLogger with
  | some l => ((some l, none), g, w)
  | none =>
    let logger : Logger := ⟨level, [Writer.stdout]⟩
    match utils.GetAppDataPath w.env w.fs "logs" with
    | (fs1, _, some err) => ((none, some err), g, { w with fs := fs1 })
    | (fs1, logDir, none) =>
      match os.MkdirAll fs1 (filepath.Dir logDir) with
      | (fs2, some err) => ((none, some err), g, { w with fs := fs2 })
      | (fs2, none) =>
        let date := w.date
        let logFile := filepath.Join [filepath.Dir logDir, "logs", date ++ ".log"]
        match os.MkdirAll fs2 (filepath.Dir logFile) with
        | (fs3, some err) => ((none, some err), g, { w with fs := fs3 })
        | (fs3, none) =>
          match os.OpenFileAppend fs3 logFile with
          | (fs4, some err) => ((none, some err), g, { w with fs := fs4 })
          | (fs4, none) =>
            let logger : Logger := { logger with writers := logger.writers ++ [Writer.file logFile] }
            ((some logger, none), { g with globalLogger := some logger }, { w with fs := fs4 })

/-- `Setup` of `logger.go`: `loggerMu.Lock()`, the body, and the deferred
`loggerMu.Unlock()`.  A Go mutex is not reentrant: taking it while it is
held blocks. -/
def Setup (level : Level) (g : Global) (w : World) :
    Outcome ((Option Logger × Option GoError) × Global × World) :=
  if g.loggerMu then Outcome.deadlock
  else
    match setupLocked level { g with loggerMu := true } w with
    | (r, g1, w1) => Outcome.returned (r, { g1 with loggerMu := false }, w1)

/-- `SetLevel` of `logger.go`. -/
def SetLevel (level : Level) (g : Global) (w : World) : Outcome (Global × World) :=
  if g.loggerMu then Outcome.deadlock
  else
    let g := { g with loggerMu := true }
    match g.globalLogger with
    | none =>
      match Setup level g w with
      | Outcome.deadlock => Outcome.deadlock
      | Outcome.panic => Outcome.panic
      | Outcome.returned ((l, _), g1, w1) =>
        Outcome.returned ({ g1 with globalLogger := l, loggerMu := false }, w1)
    | some l =>
      Outcome.returned
        ({ g with globalLogger := some { l with level := level }, loggerMu := false }, w)

/-- `GetLogger` of `logger.go`. -/
def GetLogger (g : Global) (w : World) : Outcome (Option Logger × Global × World) :=
  if g.loggerMu then Outcome.deadlock
  else
    let g := { g with loggerMu := true }
    match g.globalLogger with
    | none =>
      match Setup INFO g w with
      | Outcome.deadlock => Outcome.deadlock
      | Outcome.panic => Outcome.panic
      | Outcome.returned ((l, _), g1, w1) =>
        Outcome.returned (l, { g1 with globalLogger := l, loggerMu := false }, w1)
    | some l => Outcome.returned (some l, { g with loggerMu := false }, w)

/-- The call `GetLogger().log(level, msg, includeTrace)` every package-level
logging function makes; calling `log` on a `nil` logger panics. -/
def logGlobal (level : Level) (msg : String) (includeTrace : Bool) (g : Global) (w : World) :
    Outcome (Global × World) :=
  match GetLogger g w with
  | Outcome.deadlock => Outcome.deadlock
  | Outcome.panic => Outcome.panic
  | Outcome.returned (none, _, _) => Outcome.panic
  | Outcome.returned (some l, g1, w1) => Outcome.returned (g1, l.log level msg includeTrace w1)

/-- `Debug` of `logger.go`. -/
def Debug (msg : String) (g : Global) (w : World) : Outcome (Global × World) :=
  logGlobal DEBUG msg false g w

/-- `Info` of `logger.go`. -/
def Info (msg : String) (g : Global) (w : World) : Outcome (Global × World) :=
  logGlobal INFO msg false g w

/-- `Warning` of `logger.go`. -/
def Warning (msg : String) (g : Global) (w : World) : Outcome (Global × World) :=
  logGlobal WARNING msg false g w

/-- `Error` of `logger.go`. -/
def Error (msg : String) (g : Global) (w : World) : Outcome (Global × World) :=
  logGlobal ERROR msg true g w

/-- `Errorf` of `logger.go`; `Sprintf` is `fmt.Sprintf`. -/
def Errorf {Arg : Type} (Sprintf : String → List Arg → String) (format : String)
    (args : List Arg) (g : Global) (w : World) : Outcome (Global × World) :=
  logGlobal ERROR (Sprintf format args) true g w

/-- `ErrorNoTrace` of `logger.go`. -/
def ErrorNoTrace (msg : String) (g : Global) (w : World) : Outcome (Global × World) :=
  logGlobal ERROR msg false g w

/-- `Critical` of `logger.go`. -/
def Critical (msg : String) (g : Global) (w : World) : Outcome (Global × World) :=
  logGlobal CRITICAL msg true g w

/-- `Criticalf` of `logger.go`; `Sprintf` is `fmt.Sprintf`. -/
def Criticalf {Arg : Type} (Sprintf : String → List Arg → String) (format : String)
    (args : List Arg) (g : Global) (w : World) : Outcome (Global × World) :=
  logGlobal CRITICAL (Sprintf format args) true g w

end logger

/-! ## States the theorems are tried on -/

namespace sample

/-- A YAML library for records that are plain text: every document but the
empty one parses, to itself. -/
def codec : yaml.Codec String where
  Marshal := fun v => Except.ok v
  Unmarshal := fun data =>
    if data = "" then Except.error (GoError.yaml "EOF") else Except.ok data

/-- The working directory `/home/app`. -/
def home : os.Key := ["app".data, "home".data]

/-- The entries of a filesystem holding `config.yaml`, `broken.yaml` and
`other.yaml` in the working directory. -/
def table : List (os.Key × os.Entry) :=
  [(["home".data], os.Entry.dir 1),
   (home, os.Entry.dir 1),
   ("config.yaml".data :: home, os.Entry.file 0),
   ("broken.yaml".data :: home, os.Entry.file 1),
   ("other.yaml".data :: home, os.Entry.file 2)]

/-- A filesystem holding `config.yaml`, an empty `broken.yaml` and
`other.yaml` in the working directory, all three written at time 7. -/
def fs : os.FS where
  entries := os.find table
  files := fun i =>
    if i = 0 then ("time_scale: 1", 7)
    else if i = 2 then ("time_scale: 2", 7)
    else ("", 7)
  nextIno := 3
  cwd := home
  denied := fun _ => false
  free := 100
  clock := 9

/-- A store that has loaded `config.yaml` at time 7: the record is the one
at index 0 of the heap. -/
def loaded : config.Store := ⟨some 0, "config.yaml", 7⟩

/-- An environment with both `APPDATA` and `HOME` set. -/
def env : String → Option String := fun k =>
  if k = "APPDATA" then some "/mnt/c/Users/X/AppData/Roaming"
  else if k = "HOME" then some "/home/x"
  else none

/-- An environment with `HOME` set and `APPDATA` set to the empty string. -/
def envHome : String → Option String := fun k =>
  if k = "APPDATA" then some ""
  else if k = "HOME" then some "/home/x"
  else none

/-- An environment with no variable set. -/
def envNone : String → Option String := fun _ => none

/-- A world in which writing to standard output fails, seen at ten o'clock
on the first of November 2026, with no environment variable set. -/
def world : logger.World where
  fs := fs
  env := fun _ => none
  broken := fun wr => decide (wr = logger.Writer.stdout)
  written := []
  date := "2026-11-01"
  timestamp := "2026-11-01 10:00:00"
  stack := "goroutine 1 [running]:"

/-- A logger of threshold `WARNING` writing to standard output and to one
more writer. -/
def warner : logger.Logger := ⟨logger.WARNING, [logger.Writer.stdout, logger.Writer.other 1]⟩

end sample

/-! ## Notions the theorems on the filesystem are stated with -/

namespace os

/-- The filesystem `b` is `a` with directories added where nothing was. -/
structure Grown (a b : FS) : Prop where
  lookup : ∀ k, b.lookup k = a.lookup k ∨
    (a.lookup k = none ∧ ∃ t, b.lookup k = some (Entry.dir t))
  files : b.files = a.files
  nextIno : b.nextIno = a.nextIno
  cwd : b.cwd = a.cwd

end os

namespace os

end os

namespace os

end os

/-! # Theorems -/

/-! ## Rounding -/

namespace float64

theorem log2Floor_le : ∀ (fuel n E : Nat), n < 2 ^ (E + 1) → log2Floor fuel n ≤ E
  | 0, _, _, _ => Nat.zero_le _
  | fuel + 1, n, E, h => by
    rw [log2Floor]
    by_cases h2 : n < 2
    · rw [if_pos h2]
      exact Nat.zero_le _
    · rw [if_neg h2]
      cases E with
      | zero =>
        simp at h
        omega
      | succ E =>
        have h3 : n / 2 < 2 ^ (E + 1) := by
          rw [pow_succ] at h
          omega
        have := log2Floor_le fuel (n / 2) E h3
        omega

/-- The nearest integer is not below an integer below the fraction. -/
theorem nearest_ge (num den N : Nat) (hd : 0 < den) (h : N * den ≤ num) :
    N ≤ nearest num den := by
  have h1 : N ≤ num / den := (Nat.le_div_iff_mul_le hd).mpr h
  unfold nearest
  split_ifs <;> omega

/-- The nearest integer is not above an integer above the fraction. -/
theorem nearest_le (num den N : Nat) (hd : 0 < den) (h : num ≤ N * den) :
    nearest num den ≤ N := by
  have hdm := Nat.div_add_mod num den
  have hml := Nat.mod_lt num hd
  have h1 : num / den ≤ N := by
    by_contra hc
    have : (N + 1) * den ≤ num / den * den := Nat.mul_le_mul_right den (by omega)
    have h2 : num / den * den ≤ num := Nat.div_mul_le_self num den
    have : (N + 1) * den = N * den + den := by ring
    omega
  unfold nearest
  split_ifs with hr
  · have hpos : 0 < num % den := by
      rcases hr with hr | ⟨hr, _⟩ <;> omega
    have hlt : num / den < N := by
      by_contra hc
      have he : num / den = N := by omega
      rw [he, Nat.mul_comm] at hdm
      omega
    omega
  · exact h1

/-- The nearest integer is below an integer that is more than a half above
the fraction. -/
theorem nearest_lt (num den N : Nat) (hd : 0 < den) (h : 2 * num + den < 2 * (N * den)) :
    nearest num den + 1 ≤ N := by
  have hdm := Nat.div_add_mod num den
  have hml := Nat.mod_lt num hd
  rw [Nat.mul_comm den] at hdm
  have key : ∀ k : Nat, 2 * (k * den) ≤ 2 * num + den → k + 1 ≤ N := by
    intro k hk
    by_contra hc
    have : N * den ≤ k * den := Nat.mul_le_mul_right den (by omega)
    omega
  have e1 : (num / den + 1) * den = num / den * den + den := Nat.succ_mul _ _
  unfold nearest
  split_ifs with hr
  · apply key
    rcases hr with hr | ⟨hr, _⟩ <;> omega
  · apply key
    omega

/-- The rounded fraction, when its exponent is `E` at most: the mantissa is
the nearest integer to the fraction scaled by a power of two. -/
theorem round_eq (neg : Bool) (a b E : Nat) (ha : a ≠ 0) (hE : E ≤ 52)
    (hq : a < b * 2 ^ (E + 1)) :
    ∃ p : Nat, 52 - E ≤ p ∧ round neg a b = ⟨neg, nearest (a * 2 ^ p) b, -(p : Int)⟩ := by
  unfold round
  rw [if_neg ha]
  simp only
  generalize he0 : (if b ≤ a then (log2Floor 1100 (a / b) : Int)
    else -(shiftUp 1100 a b : Int)) = e0
  have h0 : e0 ≤ (E : Int) := by
    rw [← he0]
    split_ifs with hba
    · have h1 : a / b < 2 ^ (E + 1) := Nat.div_lt_of_lt_mul hq
      have h2 := log2Floor_le 1100 (a / b) E h1
      exact_mod_cast h2
    · have : (0 : Int) ≤ (shiftUp 1100 a b : Int) := Int.ofNat_nonneg _
      omega
  have h1 : max e0 (-1022) ≤ (E : Int) := max_le h0 (by omega)
  generalize max e0 (-1022) = e at h1
  have hp : (0 : Int) ≤ 52 - e := by omega
  refine ⟨(52 - e).toNat, by omega, ?_⟩
  rw [if_pos hp, if_pos hp]
  congr 1
  omega

theorem ofInt_natCast (s : Nat) : ofInt (s : Int) = round false s 1 := by
  unfold ofInt
  have h : decide ((s : Int) < 0) = false := by
    rw [decide_eq_false_iff_not]
    omega
  rw [h, Int.natAbs_ofNat]

/-- The conversion of a natural number below `2 ^ 53` is exact. -/
theorem ofInt_exact (s E : Nat) (hE : E ≤ 52) (hs : s < 2 ^ (E + 1)) :
    ∃ p : Nat, (s ≠ 0 → 52 - E ≤ p) ∧ ofInt (s : Int) = ⟨false, s * 2 ^ p, -(p : Int)⟩ := by
  rw [ofInt_natCast]
  by_cases h0 : s = 0
  · subst h0
    exact ⟨0, fun h => absurd rfl h, rfl⟩
  · obtain ⟨p, hp, hr⟩ := round_eq false s 1 E h0 hE (by omega)
    refine ⟨p, fun _ => hp, ?_⟩
    rw [hr]
    congr 1
    apply Nat.le_antisymm
    · exact nearest_le _ 1 _ (by norm_num) (by omega)
    · exact nearest_ge _ 1 _ (by norm_num) (by omega)

/-- A fraction of a second, rounded, stays away from one second. -/
theorem round_nsec (n k : Nat) (hn : n < 1000000000) :
    ∃ pB mB : Nat, round false (n * 2 ^ k) (1000000000 * 2 ^ k) = ⟨false, mB, -(pB : Int)⟩ ∧
      mB * 2 ^ 35 ≤ (2 ^ 35 - 33) * 2 ^ pB := by
  have hk : 0 < 2 ^ k := Nat.two_pow_pos k
  by_cases h0 : n = 0
  · subst h0
    exact ⟨0, 0, by simp [round], by simp⟩
  · have ha : n * 2 ^ k ≠ 0 := Nat.mul_ne_zero h0 (by omega)
    have hq : n * 2 ^ k < 1000000000 * 2 ^ k * 2 ^ (0 + 1) := by
      have := Nat.mul_lt_mul_of_pos_right hn hk
      omega
    obtain ⟨p, hp, hr⟩ := round_eq false _ _ 0 ha (by norm_num) hq
    obtain ⟨p2, rfl⟩ := Nat.exists_eq_add_of_le (show 35 ≤ p by omega)
    refine ⟨35 + p2, _, hr, ?_⟩
    have hb : 0 < 1000000000 * 2 ^ k := by omega
    have hnum : n * 2 ^ 35 ≤ (2 ^ 35 - 33) * 1000000000 := by
      norm_num
      omega
    have h1 := nearest_le (n * 2 ^ k * 2 ^ (35 + p2)) (1000000000 * 2 ^ k)
      ((2 ^ 35 - 33) * 2 ^ p2) hb (by
        have := Nat.mul_le_mul_right (2 ^ k * 2 ^ p2) hnum
        calc n * 2 ^ k * 2 ^ (35 + p2) = n * 2 ^ 35 * (2 ^ k * 2 ^ p2) := by
              rw [pow_add]
              ring
          _ ≤ (2 ^ 35 - 33) * 1000000000 * (2 ^ k * 2 ^ p2) := this
          _ = (2 ^ 35 - 33) * 2 ^ p2 * (1000000000 * 2 ^ k) := by ring)
    calc nearest (n * 2 ^ k * 2 ^ (35 + p2)) (1000000000 * 2 ^ k) * 2 ^ 35
        ≤ (2 ^ 35 - 33) * 2 ^ p2 * 2 ^ 35 := Nat.mul_le_mul_right _ h1
      _ = (2 ^ 35 - 33) * 2 ^ (35 + p2) := by
        rw [pow_add]
        ring

theorem ofInt_second : ofInt 1000000000 = ⟨false, 1000000000 * 2 ^ 23, -23⟩ := by
  decide

/-- The fraction of a second in `Seconds`, as a `float64`. -/
theorem div_nsec (n : Nat) (hn : n < 1000000000) :
    ∃ pB mB : Nat, div (ofInt (n : Int)) (ofInt 1000000000) = ⟨false, mB, -(pB : Int)⟩ ∧
      mB * 2 ^ 35 ≤ (2 ^ 35 - 33) * 2 ^ pB := by
  obtain ⟨pX, _, hX⟩ := ofInt_exact n 29 (by norm_num) (by norm_num; omega)
  rw [hX, ofInt_second]
  unfold div
  simp only [bne_self_eq_false]
  by_cases hd : (0 : Int) ≤ -(pX : Int) - -23
  · rw [if_pos hd, if_pos hd]
    have e1 : n * 2 ^ pX * 2 ^ (-(pX : Int) - -23).toNat = n * 2 ^ 23 := by
      have : (-(pX : Int) - -23).toNat = 23 - pX := by omega
      rw [this, Nat.mul_assoc, ← pow_add]
      congr 2
      omega
    rw [e1]
    exact round_nsec n 23 hn
  · rw [if_neg hd, if_neg hd]
    have e1 : 1000000000 * 2 ^ 23 * 2 ^ (-(-(pX : Int) - -23)).toNat = 1000000000 * 2 ^ pX := by
      have : (-(-(pX : Int) - -23)).toNat = pX - 23 := by omega
      rw [this, Nat.mul_assoc, ← pow_add]
      congr 2
      omega
    rw [e1]
    exact round_nsec n pX hn

/-- The sum of two `float64` that are not negative and have no positive
exponent: the exact sum, rounded. -/
theorem add_eq (mA pA mB pB : Nat) :
    add ⟨false, mA, -(pA : Int)⟩ ⟨false, mB, -(pB : Int)⟩ =
      round false (mA * 2 ^ (max pA pB - pA) + mB * 2 ^ (max pA pB - pB)) (2 ^ max pA pB) := by
  unfold add signed
  simp only [Bool.false_eq_true, if_false]
  have he : min (-(pA : Int)) (-(pB : Int)) = -((max pA pB : Nat) : Int) := by omega
  rw [he]
  have e1 : (-(pA : Int) - -((max pA pB : Nat) : Int)).toNat = max pA pB - pA := by omega
  have e2 : (-(pB : Int) - -((max pA pB : Nat) : Int)).toNat = max pA pB - pB := by omega
  rw [e1, e2]
  have hs : (mA : Int) * 2 ^ (max pA pB - pA) + (mB : Int) * 2 ^ (max pA pB - pB) =
      ((mA * 2 ^ (max pA pB - pA) + mB * 2 ^ (max pA pB - pB) : Nat) : Int) := by
    push_cast
    rfl
  rw [hs]
  have hd : decide ((((mA * 2 ^ (max pA pB - pA) + mB * 2 ^ (max pA pB - pB) : Nat) : Int)) < 0)
      = false := by
    rw [decide_eq_false_iff_not]
    omega
  rw [hd, Int.natAbs_ofNat]
  by_cases hP : max pA pB = 0
  · rw [hP]
    simp
  · have hn : ¬ (0 : Int) ≤ -((max pA pB : Nat) : Int) := by omega
    rw [if_neg hn, if_neg hn]
    have e3 : (- -((max pA pB : Nat) : Int)).toNat = max pA pB := by omega
    rw [e3]

end float64

namespace time

/-- For a duration from zero up to `2 ^ 24` seconds the `float64` number of
seconds, converted to `int`, is the duration truncated to seconds. -/
theorem Seconds_trunc (d : Int) (h0 : 0 ≤ d) (h1 : d < 16777216000000000) :
    float64.toInt (Seconds d) = d.tdiv 1000000000 := by
  obtain ⟨D, rfl⟩ := Int.eq_ofNat_of_zero_le h0
  have hdiv : (D : Int).tdiv 1000000000 = ((D / 1000000000 : Nat) : Int) := rfl
  have hmod : (D : Int).tmod 1000000000 = ((D % 1000000000 : Nat) : Int) := rfl
  unfold Seconds
  simp only
  rw [hdiv, hmod]
  have hs : D / 1000000000 < 2 ^ (23 + 1) := by
    norm_num
    omega
  have hn : D % 1000000000 < 1000000000 := Nat.mod_lt _ (by norm_num)
  generalize D / 1000000000 = s at hs ⊢
  generalize D % 1000000000 = n at hn ⊢
  obtain ⟨pA, _, hA⟩ := float64.ofInt_exact s 23 (by norm_num) hs
  obtain ⟨pB, mB, hB, hmB⟩ := float64.div_nsec n hn
  rw [hA, hB, float64.add_eq]
  have hT : 0 < 2 ^ max pA pB := Nat.two_pow_pos _
  have eA : s * 2 ^ pA * 2 ^ (max pA pB - pA) = s * 2 ^ max pA pB := by
    rw [Nat.mul_assoc, ← pow_add]
    congr 2
    omega
  rw [eA]
  have hβ : mB * 2 ^ (max pA pB - pB) * 2 ^ 35 ≤ (2 ^ 35 - 33) * 2 ^ max pA pB := by
    calc mB * 2 ^ (max pA pB - pB) * 2 ^ 35 = mB * 2 ^ 35 * 2 ^ (max pA pB - pB) := by ring
      _ ≤ (2 ^ 35 - 33) * 2 ^ pB * 2 ^ (max pA pB - pB) := Nat.mul_le_mul_right _ hmB
      _ = (2 ^ 35 - 33) * 2 ^ max pA pB := by
        rw [Nat.mul_assoc, ← pow_add]
        congr 2
        omega
  generalize mB * 2 ^ (max pA pB - pB) = β at hβ ⊢
  generalize 2 ^ max pA pB = T at hT hβ ⊢
  norm_num at hβ hs
  by_cases ha : s * T + β = 0
  · have hs0 : s = 0 := by
      rcases Nat.eq_zero_or_pos s with h | h
      · exact h
      · have : 0 < s * T := Nat.mul_pos h hT
        omega
    rw [ha, hs0]
    rfl
  · have hq : s * T + β < T * 2 ^ (23 + 1) := by
      have : (s + 1) * T ≤ 2 ^ (23 + 1) * T := Nat.mul_le_mul_right T (by norm_num; omega)
      have e : (s + 1) * T = s * T + T := Nat.succ_mul s T
      norm_num at this ⊢
      omega
    obtain ⟨pR, hpR, hR⟩ := float64.round_eq false _ _ 23 ha (by norm_num) hq
    rw [hR]
    obtain ⟨q, rfl⟩ := Nat.exists_eq_add_of_le (show 29 ≤ pR by omega)
    have hQ : 0 < 2 ^ (29 + q) := Nat.two_pow_pos _
    have hQ29 : 2 ^ 29 ≤ 2 ^ (29 + q) := Nat.pow_le_pow_right (by norm_num) (by omega)
    have lo := float64.nearest_ge ((s * T + β) * 2 ^ (29 + q)) T (s * 2 ^ (29 + q)) hT (by
      have : s * 2 ^ (29 + q) * T = s * T * 2 ^ (29 + q) := by ring
      rw [this]
      exact Nat.mul_le_mul_right _ (by omega))
    have hi := float64.nearest_lt ((s * T + β) * 2 ^ (29 + q)) T ((s + 1) * 2 ^ (29 + q)) hT (by
      generalize 2 ^ (29 + q) = Q at hQ hQ29 ⊢
      have hX : 0 < Q * T := Nat.mul_pos hQ hT
      have h1 : β * Q * 34359738368 ≤ 34359738335 * (Q * T) := by
        have := Nat.mul_le_mul_right Q hβ
        calc β * Q * 34359738368 = β * 34359738368 * Q := by ring
          _ ≤ 34359738335 * T * Q := this
          _ = 34359738335 * (Q * T) := by ring
      have h2 : T * 536870912 ≤ Q * T := by
        have := Nat.mul_le_mul_left T hQ29
        norm_num at this
        calc T * 536870912 ≤ T * Q := this
          _ = Q * T := Nat.mul_comm _ _
      have e1 : (s * T + β) * Q = s * (Q * T) + β * Q := by ring
      have e2 : (s + 1) * Q * T = s * (Q * T) + Q * T := by ring
      rw [e1, e2]
      generalize Q * T = X at hX h1 h2 ⊢
      generalize β * Q = Y at h1 ⊢
      generalize s * X = Z
      omega)
    unfold float64.toInt
    simp only [Bool.false_eq_true, if_false]
    have hneg : ¬ (0 : Int) ≤ -((29 + q : Nat) : Int) := by omega
    rw [if_neg hneg]
    have e3 : (- -((29 + q : Nat) : Int)).toNat = 29 + q := by omega
    rw [e3]
    congr 1
    exact Nat.div_eq_of_lt_le lo (by omega)

end time
/-! ## Rendering a time delta -/

namespace utils

theorem digitChar_isDigit (k : Nat) (h : k < 10) : (digitChar k).isDigit = true := by
  unfold digitChar
  interval_cases k <;> decide

theorem digitChar_value (k : Nat) (h : k < 10) : (digitChar k).toNat - 48 = k := by
  unfold digitChar
  interval_cases k <;> decide

theorem readUnits_digit (k : Nat) (h : k < 10) (rest : List Char) (total acc : Nat) :
    readUnits (digitChar k :: rest) total acc = readUnits rest total (acc * 10 + k) := by
  simp [readUnits, digitChar_isDigit k h, digitChar_value k h]

/-- Reading the digits of `n` gives `n` back. -/
theorem readUnits_decDigits (fuel : Nat) :
    ∀ (n : Nat) (rest : List Char) (total : Nat), n < fuel →
      readUnits (decDigits fuel n ++ rest) total 0 = readUnits rest total n := by
  induction fuel with
  | zero => intro n rest total h; omega
  | succ fuel ih =>
    intro n rest total h
    unfold decDigits
    by_cases hn : n < 10
    · simp only [hn, if_true, List.singleton_append]
      rw [readUnits_digit n hn]
      simp
    · simp only [hn, if_false, List.append_assoc, List.singleton_append]
      rw [ih (n / 10) _ total (by omega), readUnits_digit (n % 10) (by omega)]
      congr 1
      omega

theorem readUnits_formatNat (n : Nat) (rest : List Char) (total : Nat) :
    readUnits ((formatNat n).data ++ rest) total 0 = readUnits rest total n :=
  readUnits_decDigits (n + 1) n rest total (by omega)

theorem formatInt_natCast (n : Nat) : formatInt (n : Int) = formatNat n := rfl

theorem printedSeconds_hms (h m s : Nat) :
    printedSeconds (formatNat h ++ "小时" ++ formatNat m ++ "分钟" ++ formatNat s ++ "秒")
      = h * 3600 + m * 60 + s := by
  have e1 : "小时".data = ['小', '时'] := rfl
  have e2 : "分钟".data = ['分', '钟'] := rfl
  have e3 : "秒".data = ['秒'] := rfl
  unfold printedSeconds
  simp only [String.data_append, List.append_assoc, e1, e2, e3]
  rw [readUnits_formatNat]
  simp only [List.cons_append, List.nil_append]
  rw [show readUnits ('小' :: '时' :: ((formatNat m).data ++ ('分' :: '钟' :: ((formatNat s).data ++ ['秒'])))) 0 h
      = readUnits ((formatNat m).data ++ ('分' :: '钟' :: ((formatNat s).data ++ ['秒']))) (0 + h * 3600) 0 from by
    simp [readUnits]]
  rw [readUnits_formatNat]
  rw [show readUnits ('分' :: '钟' :: ((formatNat s).data ++ ['秒'])) (0 + h * 3600) m
      = readUnits ((formatNat s).data ++ ['秒']) (0 + h * 3600 + m * 60) 0 from by
    simp [readUnits]]
  rw [readUnits_formatNat]
  simp [readUnits]

theorem printedSeconds_ms (m s : Nat) :
    printedSeconds (formatNat m ++ "分钟" ++ formatNat s ++ "秒") = m * 60 + s := by
  have e2 : "分钟".data = ['分', '钟'] := rfl
  have e3 : "秒".data = ['秒'] := rfl
  unfold printedSeconds
  simp only [String.data_append, List.append_assoc, e2, e3]
  rw [readUnits_formatNat]
  simp only [List.cons_append, List.nil_append]
  rw [show readUnits ('分' :: '钟' :: ((formatNat s).data ++ ['秒'])) 0 m
      = readUnits ((formatNat s).data ++ ['秒']) (0 + m * 60) 0 from by
    simp [readUnits]]
  rw [readUnits_formatNat]
  simp [readUnits]

theorem printedSeconds_s (s : Nat) :
    printedSeconds (formatNat s ++ "秒") = s := by
  have e3 : "秒".data = ['秒'] := rfl
  unfold printedSeconds
  simp only [String.data_append, e3]
  rw [readUnits_formatNat]
  simp [readUnits]

/-- The function on a duration whose count of whole seconds, as the code
computes it, is `s ≥ 0`, by the size of the count. -/
theorem GetReadableTimeDelta_of_count (d : Int) (s : Nat)
    (h : float64.toInt (time.Seconds d) = (s : Int)) :
    GetReadableTimeDelta d =
      if 3600 ≤ s then
        formatNat (s / 3600) ++ "小时" ++ formatNat (s / 60 % 60) ++ "分钟"
          ++ formatNat (s % 60) ++ "秒"
      else if 60 ≤ s then formatNat (s / 60 % 60) ++ "分钟" ++ formatNat (s % 60) ++ "秒"
      else formatNat (s % 60) ++ "秒" := by
  have d1 : (s : Int).tdiv 60 = ((s / 60 : Nat) : Int) := rfl
  have d2 : (s : Int).tmod 60 = ((s % 60 : Nat) : Int) := rfl
  have d3 : ((s / 60 : Nat) : Int).tdiv 60 = ((s / 3600 : Nat) : Int) := by
    rw [show s / 3600 = s / 60 / 60 from by rw [Nat.div_div_eq_div_mul]]
    rfl
  have d4 : ((s / 60 : Nat) : Int).tmod 60 = ((s / 60 % 60 : Nat) : Int) := rfl
  unfold GetReadableTimeDelta
  simp only [h, d1, d2, d3, d4, formatInt_natCast, gt_iff_lt, Int.natCast_pos]
  by_cases a : 3600 ≤ s
  · have : 0 < s / 3600 := Nat.div_pos a (by norm_num)
    simp [a, this]
  · have h0 : ¬ 0 < s / 3600 := by
      have : s / 3600 = 0 := Nat.div_eq_of_lt (by omega)
      omega
    by_cases b : 60 ≤ s
    · have : 0 < s / 60 % 60 := by omega
      simp [a, b, h0, this]
    · have : ¬ 0 < s / 60 % 60 := by omega
      simp [a, b, h0, this]

end utils

/-- C10, as amended: for a duration `d` whose count of whole seconds as the
code computes it, `s = int(d.Seconds())`, is not negative,
`s = H*3600 + M*60 + S` with `M, S < 60` for `H = s / 3600`,
`M = s / 60 % 60`, `S = s % 60`, and for no other `H, M, S`;
`GetReadableTimeDelta` returns `H小时M分钟S秒` when `s ≥ 3600`, `M分钟S秒` when
`60 ≤ s < 3600` and `S秒` when `s < 60`; the numbers it prints determine
`s`: reading them back gives `s`; and for a duration from zero up to `2 ^ 24`
seconds `s` is the duration truncated to seconds. -/
theorem utils.GetReadableTimeDelta_renders_decomposition (d : Int) (s : Nat)
    (h : float64.toInt (time.Seconds d) = (s : Int)) :
    (s = s / 3600 * 3600 + s / 60 % 60 * 60 + s % 60 ∧ s / 60 % 60 < 60 ∧ s % 60 < 60) ∧
    (∀ H M S : Nat, s = H * 3600 + M * 60 + S → M < 60 → S < 60 →
      H = s / 3600 ∧ M = s / 60 % 60 ∧ S = s % 60) ∧
    (3600 ≤ s → utils.GetReadableTimeDelta d =
      utils.formatNat (s / 3600) ++ "小时" ++ utils.formatNat (s / 60 % 60) ++ "分钟"
        ++ utils.formatNat (s % 60) ++ "秒") ∧
    (60 ≤ s → s < 3600 → utils.GetReadableTimeDelta d =
      utils.formatNat (s / 60 % 60) ++ "分钟" ++ utils.formatNat (s % 60) ++ "秒") ∧
    (s < 60 → utils.GetReadableTimeDelta d = utils.formatNat (s % 60) ++ "秒") ∧
    utils.printedSeconds (utils.GetReadableTimeDelta d) = s ∧
    (0 ≤ d → d < 16777216000000000 → (s : Int) = d.tdiv 1000000000) := by
  have key := utils.GetReadableTimeDelta_of_count d s h
  refine ⟨⟨by omega, by omega, by omega⟩, ?_, ?_, ?_, ?_, ?_, ?_⟩
  · intro H M S h hM hS
    refine ⟨?_, ?_, ?_⟩ <;> omega
  · intro h
    rw [key, if_pos h]
  · intro h1 h2
    rw [key, if_neg (by omega), if_pos h1]
  · intro h
    rw [key, if_neg (by omega), if_neg (by omega)]
  · rw [key]
    by_cases a : 3600 ≤ s
    · rw [if_pos a, utils.printedSeconds_hms]
      omega
    · by_cases b : 60 ≤ s
      · rw [if_neg a, if_pos b, utils.printedSeconds_ms]
        omega
      · rw [if_neg a, if_neg b, utils.printedSeconds_s]
        omega
  · intro h0 h1
    rw [← h]
    exact time.Seconds_trunc d h0 h1

/-- C10, as amended, at 3725.5 seconds: the count is 3725, the duration
truncated to seconds: one hour, two minutes, five seconds. -/
theorem utils.GetReadableTimeDelta_renders_decomposition_witness :
    float64.toInt (time.Seconds 3725500000000) = ((3725 : Nat) : Int) ∧
    utils.GetReadableTimeDelta 3725500000000 =
      utils.formatNat (3725 / 3600) ++ "小时" ++ utils.formatNat (3725 / 60 % 60) ++ "分钟"
        ++ utils.formatNat (3725 % 60) ++ "秒" ∧
    utils.GetReadableTimeDelta 3725500000000 = "1小时2分钟5秒" ∧
    ((3725 : Nat) : Int) = (3725500000000 : Int).tdiv 1000000000 :=
  ⟨by decide,
    (utils.GetReadableTimeDelta_renders_decomposition 3725500000000 3725 (by decide)).2.2.1
      (by decide),
    by decide,
    (utils.GetReadableTimeDelta_renders_decomposition 3725500000000 3725
      (by decide)).2.2.2.2.2.2 (by decide) (by decide)⟩

/-- C10 as stated fails: a duration of 16777216.999999999 seconds truncates
to 16777216 seconds, that is 4660 hours, 20 minutes and 16 seconds, but the
`float64` sum in `Seconds` rounds to 16777217 and `GetReadableTimeDelta`
prints 17 seconds. -/
theorem utils.GetReadableTimeDelta_rounds_up :
    (16777216999999999 : Int).tdiv 1000000000 = 16777216 ∧
    (16777216 : Nat) = 4660 * 3600 + 20 * 60 + 16 ∧
    float64.toInt (time.Seconds 16777216999999999) = 16777217 ∧
    utils.GetReadableTimeDelta 16777216999999999 = "4660小时20分钟17秒" ∧
    utils.GetReadableTimeDelta 16777216999999999 ≠
      utils.formatNat 4660 ++ "小时" ++ utils.formatNat 20 ++ "分钟"
        ++ utils.formatNat 16 ++ "秒" := by
  decide

/-! ## The configuration store -/

namespace config

theorem Load_err_or_cfg {Config : Type} (codec : yaml.Codec Config) (fs : os.FS)
    (heap : List Config) (path : String) :
    ((Load codec fs heap path).err ≠ none ∧ (Load codec fs heap path).cfg = none ∧
        (Load codec fs heap path).heap = heap) ∨
    ((Load codec fs heap path).err = none ∧ ∃ data cfg, os.ReadFile fs path = Except.ok data ∧
        codec.Unmarshal data = Except.ok cfg ∧
        (Load codec fs heap path).cfg = some heap.length ∧
        (Load codec fs heap path).heap = heap ++ [cfg] ∧
        (Load codec fs heap path).calls = [Call.ReadFile path, Call.Unmarshal data]) := by
  unfold Load
  cases h1 : os.ReadFile fs path with
  | error e => left; simp
  | ok data =>
    cases h2 : codec.Unmarshal data with
    | error e => left; simp [h2]
    | ok cfg => right; simp [h2]

theorem Get_stat_error {Config : Type} (codec : yaml.Codec Config) (fs : os.FS) (st : Store)
    (heap : List Config) (e : GoError) (h : os.Stat fs st.configPath = Except.error e) :
    Get codec fs st heap = (⟨none, some e, heap, [Call.Stat st.configPath]⟩, st) := by
  unfold Get
  rw [h]

theorem Get_cached {Config : Type} (codec : yaml.Codec Config) (fs : os.FS) (st : Store)
    (heap : List Config) (info : os.FileInfo) (p : Nat)
    (h : os.Stat fs st.configPath = Except.ok info) (hc : st.globalConfig = some p)
    (ht : info.ModTime = st.lastModTime) :
    Get codec fs st heap = (⟨some p, none, heap, [Call.Stat st.configPath]⟩, st) := by
  unfold Get
  rw [h]
  simp [hc, ht]

theorem Get_reload {Config : Type} (codec : yaml.Codec Config) (fs : os.FS) (st : Store)
    (heap : List Config) (info : os.FileInfo)
    (h : os.Stat fs st.configPath = Except.ok info)
    (hc : st.globalConfig = none ∨ info.ModTime ≠ st.lastModTime) :
    Get codec fs st heap =
      match (Load codec fs heap st.configPath).err with
      | some err =>
        (⟨none, some err, (Load codec fs heap st.configPath).heap,
            Call.Stat st.configPath :: (Load codec fs heap st.configPath).calls⟩, st)
      | none =>
        (⟨(Load codec fs heap st.configPath).cfg, none, (Load codec fs heap st.configPath).heap,
            Call.Stat st.configPath :: (Load codec fs heap st.configPath).calls⟩,
          { st with globalConfig := (Load codec fs heap st.configPath).cfg,
                    lastModTime := info.ModTime }) := by
  unfold Get
  rw [h]
  simp only [if_pos hc]

end config

/-- C1: whenever `Get` returns an error, the cached snapshot, the last-loaded
modification time and the configured path are what they were, no record was
allocated, and the returned snapshot is `nil`; and `Get` does return an
error both when `Stat` of the configured path fails and when the file has to
be loaded and `Load` fails (reading or parsing). -/
theorem config.Get_error_leaves_store {Config : Type} (codec : yaml.Codec Config)
    (fs : os.FS) (st : config.Store) (heap : List Config) :
    ((config.Get codec fs st heap).1.err ≠ none →
      (config.Get codec fs st heap).2 = st ∧ (config.Get codec fs st heap).1.cfg = none ∧
        (config.Get codec fs st heap).1.heap = heap) ∧
    (∀ e, os.Stat fs st.configPath = Except.error e →
      (config.Get codec fs st heap).1.err = some e) ∧
    (∀ info e, os.Stat fs st.configPath = Except.ok info →
      (st.globalConfig = none ∨ info.ModTime ≠ st.lastModTime) →
      (config.Load codec fs heap st.configPath).err = some e →
      (config.Get codec fs st heap).1.err = some e) := by
  refine ⟨?_, ?_, ?_⟩
  · intro herr
    cases hs : os.Stat fs st.configPath with
    | error e =>
      rw [config.Get_stat_error codec fs st heap e hs]
      exact ⟨rfl, rfl, rfl⟩
    | ok info =>
      by_cases hc : st.globalConfig = none ∨ info.ModTime ≠ st.lastModTime
      · rw [config.Get_reload codec fs st heap info hs hc] at herr ⊢
        rcases config.Load_err_or_cfg codec fs heap st.configPath with ⟨h1, _, h3⟩ | ⟨h1, _⟩
        · cases hl : (config.Load codec fs heap st.configPath).err with
          | none => exact absurd hl h1
          | some err => exact ⟨rfl, rfl, h3⟩
        · rw [h1] at herr
          exact absurd rfl herr
      · have hp : ∃ p, st.globalConfig = some p := by
          cases hg : st.globalConfig with
          | none => exact absurd (Or.inl hg) hc
          | some p => exact ⟨p, rfl⟩
        obtain ⟨p, hp⟩ := hp
        have ht : info.ModTime = st.lastModTime := by
          by_contra hne
          exact hc (Or.inr hne)
        rw [config.Get_cached codec fs st heap info p hs hp ht] at herr
        exact absurd rfl herr
  · intro e hs
    rw [config.Get_stat_error codec fs st heap e hs]
  · intro info e hs hc hl
    rw [config.Get_reload codec fs st heap info hs hc, hl]

/-- C1 on a store holding a snapshot whose file is now an empty document:
the reload fails to parse and the store is left as it was. -/
theorem config.Get_error_leaves_store_witness :
    (config.Get sample.codec sample.fs ⟨some 0, "broken.yaml", 3⟩ ["old"]).1.err ≠ none ∧
    ((config.Get sample.codec sample.fs ⟨some 0, "broken.yaml", 3⟩ ["old"]).2
        = ⟨some 0, "broken.yaml", 3⟩ ∧
      (config.Get sample.codec sample.fs ⟨some 0, "broken.yaml", 3⟩ ["old"]).1.cfg = none ∧
      (config.Get sample.codec sample.fs ⟨some 0, "broken.yaml", 3⟩ ["old"]).1.heap = ["old"]) :=
  ⟨by decide,
    (config.Get_error_leaves_store sample.codec sample.fs ⟨some 0, "broken.yaml", 3⟩ ["old"]).1
      (by decide)⟩

namespace config

theorem Get_loaded {Config : Type} (codec : yaml.Codec Config) (fs : os.FS) (st : Store)
    (heap : List Config) (info : os.FileInfo) (data : String) (cfg : Config)
    (hs : os.Stat fs st.configPath = Except.ok info)
    (hc : st.globalConfig = none ∨ info.ModTime ≠ st.lastModTime)
    (hr : os.ReadFile fs st.configPath = Except.ok data)
    (hu : codec.Unmarshal data = Except.ok cfg) :
    Get codec fs st heap =
      (⟨some heap.length, none, heap ++ [cfg],
          [Call.Stat st.configPath, Call.ReadFile st.configPath, Call.Unmarshal data]⟩,
        ⟨some heap.length, st.configPath, info.ModTime⟩) := by
  rw [Get_reload codec fs st heap info hs hc]
  simp [Load, hr, hu]

/-- After a `Get` that succeeded, the store holds the returned snapshot, for
the same path, loaded at the modification time the file has now. -/
theorem Get_ok_store {Config : Type} (codec : yaml.Codec Config) (fs : os.FS) (st : Store)
    (heap : List Config) (info : os.FileInfo)
    (hs : os.Stat fs st.configPath = Except.ok info)
    (hok : (Get codec fs st heap).1.err = none) :
    ∃ p, (Get codec fs st heap).1.cfg = some p ∧
      (Get codec fs st heap).2 = ⟨some p, st.configPath, info.ModTime⟩ ∧
      (reads (Get codec fs st heap).1.calls =
        if st.globalConfig = none ∨ info.ModTime ≠ st.lastModTime then 1 else 0) := by
  by_cases hc : st.globalConfig = none ∨ info.ModTime ≠ st.lastModTime
  · rcases Load_err_or_cfg codec fs heap st.configPath with ⟨h1, _, _⟩ | ⟨_, data, cfg, hr, hu, _⟩
    · rw [Get_reload codec fs st heap info hs hc] at hok
      cases hl : (Load codec fs heap st.configPath).err with
      | none => exact absurd hl h1
      | some err => rw [hl] at hok; simp at hok
    · rw [Get_loaded codec fs st heap info data cfg hs hc hr hu]
      exact ⟨heap.length, rfl, rfl, by simp [reads, hc]⟩
  · have hp : ∃ p, st.globalConfig = some p := by
      cases hg : st.globalConfig with
      | none => exact absurd (Or.inl hg) hc
      | some p => exact ⟨p, rfl⟩
    obtain ⟨p, hp⟩ := hp
    have ht : info.ModTime = st.lastModTime := by
      by_contra hne
      exact hc (Or.inr hne)
    rw [Get_cached codec fs st heap info p hs hp ht]
    refine ⟨p, rfl, ?_, by simp [reads, hc]⟩
    cases st
    simp_all

end config

/-- C2: when `Stat` of the configured path succeeds: (1) with a snapshot
cached and the file's modification time equal to the last-loaded one, `Get`
returns the cached pointer, leaves store and heap alone and makes no call but
`Stat`; (2) otherwise, when the file reads and parses, `Get` returns a
pointer to the record `Load` parsed from the file's content, publishes it and
records the file's modification time; (3) a second `Get` right after a
successful one, on the same filesystem, returns the same pointer and makes no
call but `Stat`, so that the two calls read the file once when the first had
to load and not at all when it did not. -/
theorem config.Get_cache_or_reload {Config : Type} (codec : yaml.Codec Config)
    (fs : os.FS) (st : config.Store) (heap : List Config) (info : os.FileInfo)
    (hs : os.Stat fs st.configPath = Except.ok info) :
    (∀ p, st.globalConfig = some p → info.ModTime = st.lastModTime →
      config.Get codec fs st heap = (⟨some p, none, heap, [config.Call.Stat st.configPath]⟩, st)) ∧
    ((st.globalConfig = none ∨ info.ModTime ≠ st.lastModTime) →
      ∀ data cfg, os.ReadFile fs st.configPath = Except.ok data →
        codec.Unmarshal data = Except.ok cfg →
        config.Get codec fs st heap =
          (⟨some heap.length, none, heap ++ [cfg],
              [config.Call.Stat st.configPath, config.Call.ReadFile st.configPath,
                config.Call.Unmarshal data]⟩,
            ⟨some heap.length, st.configPath, info.ModTime⟩)) ∧
    ((config.Get codec fs st heap).1.err = none →
      config.Get codec fs (config.Get codec fs st heap).2 (config.Get codec fs st heap).1.heap =
          (⟨(config.Get codec fs st heap).1.cfg, none, (config.Get codec fs st heap).1.heap,
              [config.Call.Stat st.configPath]⟩, (config.Get codec fs st heap).2) ∧
        config.reads ((config.Get codec fs st heap).1.calls ++
            (config.Get codec fs (config.Get codec fs st heap).2
              (config.Get codec fs st heap).1.heap).1.calls) =
          if st.globalConfig = none ∨ info.ModTime ≠ st.lastModTime then 1 else 0) := by
  refine ⟨?_, ?_, ?_⟩
  · intro p hp ht
    exact config.Get_cached codec fs st heap info p hs hp ht
  · intro hc data cfg hr hu
    exact config.Get_loaded codec fs st heap info data cfg hs hc hr hu
  · intro hok
    obtain ⟨p, hp, hst, hreads⟩ := config.Get_ok_store codec fs st heap info hs hok
    have h2 : config.Get codec fs (config.Get codec fs st heap).2
        (config.Get codec fs st heap).1.heap =
        (⟨(config.Get codec fs st heap).1.cfg, none, (config.Get codec fs st heap).1.heap,
            [config.Call.Stat st.configPath]⟩, (config.Get codec fs st heap).2) := by
      rw [hst, hp]
      exact config.Get_cached codec fs ⟨some p, st.configPath, info.ModTime⟩ _ info p hs rfl rfl
    refine ⟨h2, ?_⟩
    rw [h2]
    have : config.reads [config.Call.Stat st.configPath] = 0 := by simp [config.reads]
    simp only [config.reads, List.countP_append] at hreads this ⊢
    rw [hreads, this]
    simp

/-- C2 on the start state and a filesystem holding `config.yaml`: the first
`Get` loads the file, the second returns the same pointer, one read in
all. -/
theorem config.Get_cache_or_reload_witness :
    os.Stat sample.fs config.Store.initial.configPath = Except.ok ⟨7, false⟩ ∧
    (config.Get sample.codec sample.fs config.Store.initial []).1.err = none ∧
    config.Get sample.codec sample.fs
        (config.Get sample.codec sample.fs config.Store.initial []).2
        (config.Get sample.codec sample.fs config.Store.initial []).1.heap =
      (⟨(config.Get sample.codec sample.fs config.Store.initial []).1.cfg, none,
          (config.Get sample.codec sample.fs config.Store.initial []).1.heap,
          [config.Call.Stat config.Store.initial.configPath]⟩,
        (config.Get sample.codec sample.fs config.Store.initial []).2) :=
  ⟨rfl, by decide,
    ((config.Get_cache_or_reload sample.codec sample.fs config.Store.initial [] ⟨7, false⟩
      rfl).2.2 (by decide)).1⟩

/-- C9: `SetConfigPath p` sets the configured path to `p` and the cached
snapshot to `nil` and changes nothing else (it is not given the filesystem);
the next `Get` fails when `Stat p` fails and otherwise, whatever the
modification time of the file at `p`, returns what `Load` returns for `p`
after the calls `Stat p` and those of `Load`; the pointer it returns is
never one of a record that was on the heap before. -/
theorem config.SetConfigPath_forces_reload {Config : Type} (codec : yaml.Codec Config)
    (fs : os.FS) (st : config.Store) (heap : List Config) (p : String) :
    config.SetConfigPath p st = ⟨none, p, st.lastModTime⟩ ∧
    (∀ e, os.Stat fs p = Except.error e →
      config.Get codec fs (config.SetConfigPath p st) heap =
        (⟨none, some e, heap, [config.Call.Stat p]⟩, config.SetConfigPath p st)) ∧
    (∀ info, os.Stat fs p = Except.ok info →
      (config.Get codec fs (config.SetConfigPath p st) heap).1.cfg =
          (config.Load codec fs heap p).cfg ∧
        (config.Get codec fs (config.SetConfigPath p st) heap).1.err =
          (config.Load codec fs heap p).err ∧
        (config.Get codec fs (config.SetConfigPath p st) heap).1.heap =
          (config.Load codec fs heap p).heap ∧
        (config.Get codec fs (config.SetConfigPath p st) heap).1.calls =
          config.Call.Stat p :: (config.Load codec fs heap p).calls) ∧
    (∀ q, q < heap.length →
      (config.Get codec fs (config.SetConfigPath p st) heap).1.cfg ≠ some q) := by
  have key : ∀ info, os.Stat fs p = Except.ok info →
      (config.Get codec fs (config.SetConfigPath p st) heap).1.cfg =
          (config.Load codec fs heap p).cfg ∧
        (config.Get codec fs (config.SetConfigPath p st) heap).1.err =
          (config.Load codec fs heap p).err ∧
        (config.Get codec fs (config.SetConfigPath p st) heap).1.heap =
          (config.Load codec fs heap p).heap ∧
        (config.Get codec fs (config.SetConfigPath p st) heap).1.calls =
          config.Call.Stat p :: (config.Load codec fs heap p).calls := by
    intro info hs
    have hs2 : os.Stat fs (config.SetConfigPath p st).configPath = Except.ok info := hs
    rw [config.Get_reload codec fs (config.SetConfigPath p st) heap info hs2 (Or.inl rfl)]
    have hp : (config.SetConfigPath p st).configPath = p := rfl
    rw [hp]
    rcases config.Load_err_or_cfg codec fs heap p with ⟨h1, h2, _⟩ | ⟨h1, _⟩
    · cases hl : (config.Load codec fs heap p).err with
      | none => exact absurd hl h1
      | some err => simp [h2]
    · rw [h1]
      simp
  refine ⟨rfl, ?_, key, ?_⟩
  · intro e hs
    exact config.Get_stat_error codec fs (config.SetConfigPath p st) heap e hs
  · intro q hq
    cases hs : os.Stat fs p with
    | error e =>
      rw [config.Get_stat_error codec fs (config.SetConfigPath p st) heap e hs]
      simp
    | ok info =>
      rw [(key info hs).1]
      rcases config.Load_err_or_cfg codec fs heap p with ⟨_, h2, _⟩ | ⟨_, _, _, _, _, h2, _⟩
      · rw [h2]
        simp
      · rw [h2]
        intro h
        have : heap.length = q := Option.some.inj h
        omega

/-- C9 on a store that loaded `config.yaml` at time 7, pointed at
`other.yaml`, which was written at time 7 too: the next `Get` loads
`other.yaml` into a new record. -/
theorem config.SetConfigPath_forces_reload_witness :
    os.Stat sample.fs "other.yaml" = Except.ok ⟨sample.loaded.lastModTime, false⟩ ∧
    (config.Get sample.codec sample.fs (config.SetConfigPath "other.yaml" sample.loaded)
        ["time_scale: 1"]).1.cfg = some 1 ∧
    (config.Get sample.codec sample.fs (config.SetConfigPath "other.yaml" sample.loaded)
        ["time_scale: 1"]).1.heap = ["time_scale: 1", "time_scale: 2"] :=
  ⟨rfl,
    ((config.SetConfigPath_forces_reload sample.codec sample.fs sample.loaded ["time_scale: 1"]
      "other.yaml").2.2.1 ⟨7, false⟩ rfl).1.trans (by decide),
    ((config.SetConfigPath_forces_reload sample.codec sample.fs sample.loaded ["time_scale: 1"]
      "other.yaml").2.2.1 ⟨7, false⟩ rfl).2.2.1.trans (by decide)⟩

/-! ## The logger -/

namespace logger

/-- The loop over the writers calls `Write` once on each, in list order, with
the same bytes, whether or not a call fails, and changes nothing else. -/
theorem writeAll_eq (writers : List Writer) (bytes : String) (w : World) :
    writeAll writers bytes w =
      { w with written := w.written ++ writers.map (fun wr => ⟨wr, bytes, w.broken wr⟩) } := by
  unfold writeAll
  induction writers generalizing w with
  | nil => simp
  | cons wr rest ih =>
    rw [List.foldl_cons, ih]
    simp [Writer.Write]

theorem log_below_threshold (l : Logger) (level : Level) (msg : String) (includeTrace : Bool)
    (w : World) (h : level < l.level) : l.log level msg includeTrace w = w := by
  unfold Logger.log
  rw [if_pos h]

theorem log_no_trace (l : Logger) (level : Level) (msg : String) (w : World)
    (h : l.level ≤ level) :
    l.log level msg false w =
      { w with written := w.written ++ l.writers.map (fun wr =>
          ⟨wr, w.timestamp ++ " [" ++ levelNames level ++ "] " ++ msg ++ "\n", w.broken wr⟩) } := by
  unfold Logger.log
  rw [if_neg (not_lt.mpr h)]
  simp [writeAll_eq]

theorem log_with_trace (l : Logger) (level : Level) (msg : String) (w : World)
    (h : l.level ≤ level) (he : ERROR ≤ level) :
    l.log level msg true w =
      { w with written := w.written
          ++ l.writers.map (fun wr =>
            ⟨wr, w.timestamp ++ " [" ++ levelNames level ++ "] " ++ msg ++ "\n", w.broken wr⟩)
          ++ l.writers.map (fun wr =>
            ⟨wr, w.timestamp ++ " [" ++ levelNames level ++ "] " ++ w.stack ++ "\n",
              w.broken wr⟩) } := by
  unfold Logger.log
  rw [if_neg (not_lt.mpr h)]
  simp [writeAll_eq, getStackTrace, he]

theorem log_trace_needs_error (l : Logger) (level : Level) (msg : String) (includeTrace : Bool)
    (w : World) (h : level < ERROR) :
    l.log level msg includeTrace w = l.log level msg false w := by
  unfold Logger.log
  have : ¬ (level ≥ ERROR) := not_le.mpr h
  simp [this]

/-- The text of a record, with the level tag written out. -/
theorem record_text (timestamp name tag msg : String) (h : " [" ++ name ++ "] " = tag) :
    timestamp ++ " [" ++ name ++ "] " ++ msg ++ "\n" = timestamp ++ tag ++ msg ++ "\n" := by
  rw [← h]
  simp only [String.append_assoc]

theorem GetLogger_ready (l : Logger) (w : World) :
    GetLogger ⟨some l, false⟩ w = Outcome.returned (some l, ⟨some l, false⟩, w) := rfl

theorem logGlobal_ready (l : Logger) (level : Level) (msg : String) (includeTrace : Bool)
    (w : World) :
    logGlobal level msg includeTrace ⟨some l, false⟩ w =
      Outcome.returned (⟨some l, false⟩, l.log level msg includeTrace w) := rfl

end logger

/-- C6: `log(level, msg, false)` on a logger with threshold `l.level` and
writers `l.writers` writes nothing when `level` is below the threshold;
otherwise it calls `Write` once on each writer, in list order, each time with
the bytes `<timestamp> [<LEVEL>] msg\n`, whether or not a writer fails, and
changes nothing else; `<LEVEL>` is the name of the level for the five levels
`DEBUG < INFO < WARNING < ERROR < CRITICAL`.  With a global logger of
threshold `WARNING`, `Debug` and `Info` return having written nothing and
`Warning` returns having written one record to each writer. -/
theorem logger.log_one_record_per_sink (l : logger.Logger) (level : logger.Level)
    (msg : String) (w : logger.World) :
    (level < l.level → l.log level msg false w = w) ∧
    (l.level ≤ level →
      l.log level msg false w =
        { w with written := w.written ++ l.writers.map (fun wr =>
            ⟨wr, w.timestamp ++ " [" ++ logger.levelNames level ++ "] " ++ msg ++ "\n",
              w.broken wr⟩) }) ∧
    (logger.DEBUG < logger.INFO ∧ logger.INFO < logger.WARNING ∧
      logger.WARNING < logger.ERROR ∧ logger.ERROR < logger.CRITICAL) ∧
    (logger.levelNames logger.DEBUG = "DEBUG" ∧ logger.levelNames logger.INFO = "INFO" ∧
      logger.levelNames logger.WARNING = "WARNING" ∧ logger.levelNames logger.ERROR = "ERROR" ∧
      logger.levelNames logger.CRITICAL = "CRITICAL") ∧
    (l.level = logger.WARNING →
      logger.Debug msg ⟨some l, false⟩ w = logger.Outcome.returned (⟨some l, false⟩, w) ∧
      logger.Info msg ⟨some l, false⟩ w = logger.Outcome.returned (⟨some l, false⟩, w) ∧
      logger.Warning msg ⟨some l, false⟩ w = logger.Outcome.returned (⟨some l, false⟩,
        { w with written := w.written ++ l.writers.map (fun wr =>
            ⟨wr, w.timestamp ++ " [WARNING] " ++ msg ++ "\n", w.broken wr⟩) })) := by
  refine ⟨logger.log_below_threshold l level msg false w, logger.log_no_trace l level msg w,
    by decide, by decide, ?_⟩
  intro ht
  refine ⟨?_, ?_, ?_⟩
  · unfold logger.Debug
    rw [logger.logGlobal_ready, logger.log_below_threshold]
    rw [ht]
    decide
  · unfold logger.Info
    rw [logger.logGlobal_ready, logger.log_below_threshold]
    rw [ht]
    decide
  · unfold logger.Warning
    rw [logger.logGlobal_ready, logger.log_no_trace l _ msg w (by rw [ht])]
    simp only [logger.record_text w.timestamp (logger.levelNames logger.WARNING) " [WARNING] " msg
      (by decide)]

/-- C6 on a logger of threshold `WARNING` with two writers, the first of
which fails: an `ERROR` record reaches both, in order. -/
theorem logger.log_one_record_per_sink_witness :
    sample.warner.level ≤ logger.ERROR ∧
    (sample.warner.log logger.ERROR "boom" false sample.world).written =
      [⟨logger.Writer.stdout, "2026-11-01 10:00:00 [ERROR] boom\n", true⟩,
        ⟨logger.Writer.other 1, "2026-11-01 10:00:00 [ERROR] boom\n", false⟩] :=
  ⟨by decide,
    (congrArg logger.World.written
      ((logger.log_one_record_per_sink sample.warner logger.ERROR "boom" sample.world).2.1
        (by decide))).trans (by decide)⟩

/-- C7: with a global logger whose threshold is at most `ERROR`, `Error`,
`Errorf`, `Critical` and `Criticalf` return having called `Write` twice on
each writer: first the message record on every writer, then on every writer
a record with the same timestamp and level tag that carries the stack trace;
`ErrorNoTrace` returns having written the message record alone; and `log`
at a level below `ERROR` writes no trace record, whatever `includeTrace`
says. -/
theorem logger.Error_writes_trace_record {Arg : Type} (Sprintf : String → List Arg → String)
    (l : logger.Logger) (msg format : String) (args : List Arg) (w : logger.World)
    (ht : l.level ≤ logger.ERROR) :
    logger.Error msg ⟨some l, false⟩ w = logger.Outcome.returned (⟨some l, false⟩,
      { w with written := w.written
          ++ l.writers.map (fun wr =>
            ⟨wr, w.timestamp ++ " [ERROR] " ++ msg ++ "\n", w.broken wr⟩)
          ++ l.writers.map (fun wr =>
            ⟨wr, w.timestamp ++ " [ERROR] " ++ w.stack ++ "\n", w.broken wr⟩) }) ∧
    logger.Errorf Sprintf format args ⟨some l, false⟩ w =
      logger.Outcome.returned (⟨some l, false⟩,
      { w with written := w.written
          ++ l.writers.map (fun wr =>
            ⟨wr, w.timestamp ++ " [ERROR] " ++ Sprintf format args ++ "\n", w.broken wr⟩)
          ++ l.writers.map (fun wr =>
            ⟨wr, w.timestamp ++ " [ERROR] " ++ w.stack ++ "\n", w.broken wr⟩) }) ∧
    logger.Critical msg ⟨some l, false⟩ w = logger.Outcome.returned (⟨some l, false⟩,
      { w with written := w.written
          ++ l.writers.map (fun wr =>
            ⟨wr, w.timestamp ++ " [CRITICAL] " ++ msg ++ "\n", w.broken wr⟩)
          ++ l.writers.map (fun wr =>
            ⟨wr, w.timestamp ++ " [CRITICAL] " ++ w.stack ++ "\n", w.broken wr⟩) }) ∧
    logger.Criticalf Sprintf format args ⟨some l, false⟩ w =
      logger.Outcome.returned (⟨some l, false⟩,
      { w with written := w.written
          ++ l.writers.map (fun wr =>
            ⟨wr, w.timestamp ++ " [CRITICAL] " ++ Sprintf format args ++ "\n", w.broken wr⟩)
          ++ l.writers.map (fun wr =>
            ⟨wr, w.timestamp ++ " [CRITICAL] " ++ w.stack ++ "\n", w.broken wr⟩) }) ∧
    logger.ErrorNoTrace msg ⟨some l, false⟩ w = logger.Outcome.returned (⟨some l, false⟩,
      { w with written := w.written
          ++ l.writers.map (fun wr =>
            ⟨wr, w.timestamp ++ " [ERROR] " ++ msg ++ "\n", w.broken wr⟩) }) ∧
    (∀ (level : logger.Level) (includeTrace : Bool), level < logger.ERROR →
      l.log level msg includeTrace w = l.log level msg false w) := by
  have hc : l.level ≤ logger.CRITICAL := le_trans ht (by decide)
  have ne : " [" ++ logger.levelNames logger.ERROR ++ "] " = " [ERROR] " := by decide
  have nc : " [" ++ logger.levelNames logger.CRITICAL ++ "] " = " [CRITICAL] " := by decide
  refine ⟨?_, ?_, ?_, ?_, ?_, ?_⟩
  · unfold logger.Error
    rw [logger.logGlobal_ready, logger.log_with_trace l _ msg w ht (le_refl _)]
    simp only [logger.record_text w.timestamp _ _ _ ne]
  · unfold logger.Errorf
    rw [logger.logGlobal_ready, logger.log_with_trace l _ _ w ht (le_refl _)]
    simp only [logger.record_text w.timestamp _ _ _ ne]
  · unfold logger.Critical
    rw [logger.logGlobal_ready, logger.log_with_trace l _ msg w hc (by decide)]
    simp only [logger.record_text w.timestamp _ _ _ nc]
  · unfold logger.Criticalf
    rw [logger.logGlobal_ready, logger.log_with_trace l _ _ w hc (by decide)]
    simp only [logger.record_text w.timestamp _ _ _ nc]
  · unfold logger.ErrorNoTrace
    rw [logger.logGlobal_ready, logger.log_no_trace l _ msg w ht]
    simp only [logger.record_text w.timestamp _ _ _ ne]
  · intro level includeTrace h
    exact logger.log_trace_needs_error l level msg includeTrace w h

/-- C7 on a global logger of threshold `WARNING` with two writers: `Error`
leaves four calls of `Write`, the two message records and then the two trace
records. -/
theorem logger.Error_writes_trace_record_witness :
    sample.warner.level ≤ logger.ERROR ∧
    logger.Error "boom" ⟨some sample.warner, false⟩ sample.world =
      logger.Outcome.returned (⟨some sample.warner, false⟩,
        { sample.world with written := sample.world.written
          ++ sample.warner.writers.map (fun wr =>
            ⟨wr, sample.world.timestamp ++ " [ERROR] " ++ "boom" ++ "\n", sample.world.broken wr⟩)
          ++ sample.warner.writers.map (fun wr =>
            ⟨wr, sample.world.timestamp ++ " [ERROR] " ++ sample.world.stack ++ "\n",
              sample.world.broken wr⟩) }) :=
  ⟨by decide,
    (logger.Error_writes_trace_record (fun (f : String) (_ : List String) => f) sample.warner
      "boom" "" [] sample.world (by decide)).1⟩

/-- C5 (what the code does): with no global logger yet, `SetLevel` never
returns, whatever the level and the world: it takes `loggerMu` and calls
`Setup`, which blocks taking `loggerMu` again; `GetLogger` does the same.
With a global logger in place, `SetLevel` returns and the threshold of the
logger is the level given. -/
theorem logger.SetLevel_before_Setup_blocks (level : logger.Level) (w : logger.World)
    (l : logger.Logger) :
    logger.SetLevel level ⟨none, false⟩ w = logger.Outcome.deadlock ∧
    logger.GetLogger ⟨none, false⟩ w = logger.Outcome.deadlock ∧
    logger.SetLevel level ⟨some l, false⟩ w =
      logger.Outcome.returned (⟨some ⟨level, l.writers⟩, false⟩, w) :=
  ⟨rfl, rfl, rfl⟩

/-! ## Paths -/

namespace filepath

theorem splitSep_noSep (w : List Char) (hw : '/' ∉ w) : splitSep w = [w] := by
  induction w with
  | nil => rfl
  | cons c cs ih =>
    have hc : c ≠ '/' := fun h => hw (by simp [h])
    have hcs : '/' ∉ cs := fun h => hw (List.mem_cons_of_mem _ h)
    simp [splitSep, hc, ih hcs, consHead]

theorem isRooted_append (s w : List Char) (hw : isRooted w = false) :
    isRooted (s ++ w) = isRooted s := by
  cases s with
  | nil => simpa [isRooted] using hw
  | cons c cs => rfl

theorem cleanStep_plain (rooted : Bool) (out : List (List Char)) (e : List Char)
    (h0 : e ≠ []) (h1 : e ≠ ['.']) (h2 : e ≠ ['.', '.']) :
    cleanStep rooted out e = e :: out := by
  simp [cleanStep, h0, h1, h2]

end filepath
/-! ## Cleaning a cleaned path -/

namespace filepath

theorem splitSep_ne_nil (s : List Char) : splitSep s ≠ [] := by
  cases s with
  | nil => simp [splitSep]
  | cons c cs =>
    by_cases hc : c = '/'
    · simp [splitSep, hc]
    · simp only [splitSep, hc, if_false]
      cases splitSep cs <;> simp [consHead]

theorem consHead_append (c : Char) (l m : List (List Char)) (h : l ≠ []) :
    consHead c (l ++ m) = consHead c l ++ m := by
  cases l with
  | nil => exact absurd rfl h
  | cons a l => rfl

/-- Splitting a path at one of its separators splits its elements. -/
theorem splitSep_append_sep (u v : List Char) :
    splitSep (u ++ '/' :: v) = splitSep u ++ splitSep v := by
  induction u with
  | nil => simp [splitSep]
  | cons c cs ih =>
    by_cases hc : c = '/'
    · simp [splitSep, hc, ih]
    · have e1 : splitSep (c :: cs ++ '/' :: v) = consHead c (splitSep (cs ++ '/' :: v)) := by
        simp [splitSep, hc]
      have e2 : splitSep (c :: cs) = consHead c (splitSep cs) := by
        simp [splitSep, hc]
      rw [e1, e2, ih]
      exact consHead_append c _ _ (splitSep_ne_nil cs)

theorem splitSep_mem_noSep (s : List Char) : ∀ e ∈ splitSep s, '/' ∉ e := by
  induction s with
  | nil => simp [splitSep]
  | cons c cs ih =>
    by_cases hc : c = '/'
    · intro e he
      simp only [splitSep, hc, if_true, List.mem_cons] at he
      rcases he with rfl | he
      · simp
      · exact ih e he
    · intro e he
      simp only [splitSep, hc, if_false] at he
      cases hs : splitSep cs with
      | nil => exact absurd hs (splitSep_ne_nil cs)
      | cons a l =>
        rw [hs] at he ih
        simp only [consHead, List.mem_cons] at he
        rcases he with rfl | he
        · intro hm
          rcases List.mem_cons.mp hm with h | h
          · exact hc h.symm
          · exact ih a (by simp) h
        · exact ih e (by simp [he])

theorem splitSep_joinSep (es : List (List Char)) (hne : es ≠ [])
    (h : ∀ e ∈ es, '/' ∉ e) : splitSep (joinSep es) = es := by
  induction es with
  | nil => exact absurd rfl hne
  | cons e rest ih =>
    cases rest with
    | nil => exact splitSep_noSep e (h e (by simp))
    | cons e1 rest1 =>
      have : joinSep (e :: e1 :: rest1) = e ++ '/' :: joinSep (e1 :: rest1) := rfl
      rw [this, splitSep_append_sep, splitSep_noSep e (h e (by simp)),
        ih (by simp) (fun x hx => h x (List.mem_cons_of_mem _ hx))]
      rfl

theorem joinSep_append_one (es : List (List Char)) (f : List Char) (hne : es ≠ []) :
    joinSep (es ++ [f]) = joinSep es ++ '/' :: f := by
  induction es with
  | nil => exact absurd rfl hne
  | cons e rest ih =>
    cases rest with
    | nil => rfl
    | cons e1 rest1 =>
      have h1 : joinSep (e :: e1 :: rest1) = e ++ '/' :: joinSep (e1 :: rest1) := rfl
      have h2 : joinSep (e :: e1 :: rest1 ++ [f]) = e ++ '/' :: joinSep (e1 :: rest1 ++ [f]) := rfl
      rw [h2, ih (by simp), h1]
      simp

end filepath

namespace filepath

theorem Canon.tail {rooted : Bool} {out : List (List Char)} (h : Canon rooted out) :
    Canon rooted out.tail := by
  cases out with
  | nil => exact h
  | cons top rest => exact h.1

theorem Canon.noSep {rooted : Bool} :
    ∀ {out : List (List Char)}, Canon rooted out → ∀ e ∈ out, '/' ∉ e
  | [], _, e, he => by cases he
  | top :: rest, h, e, he => by
    rcases List.mem_cons.mp he with rfl | he
    · rcases h.2 with hp | ⟨hd, _, _⟩
      · exact hp.2.2.2
      · rw [hd]
        decide
    · exact Canon.noSep h.1 e he

theorem Canon.ne_nil {rooted : Bool} :
    ∀ {out : List (List Char)}, Canon rooted out → ∀ e ∈ out, e ≠ []
  | [], _, e, he => by cases he
  | top :: rest, h, e, he => by
    rcases List.mem_cons.mp he with rfl | he
    · rcases h.2 with hp | ⟨hd, _, _⟩
      · exact hp.1
      · rw [hd]
        decide
    · exact Canon.ne_nil h.1 e he

/-- One round of `Clean` keeps the written elements in shape. -/
theorem cleanStep_canon (rooted : Bool) (out : List (List Char)) (e : List Char)
    (h : Canon rooted out) (he : '/' ∉ e) : Canon rooted (cleanStep rooted out e) := by
  unfold cleanStep
  by_cases h0 : e = []
  · simpa [h0] using h
  by_cases h1 : e = ['.']
  · simpa [h1] using h
  by_cases h2 : e = ['.', '.']
  · subst h2
    rw [if_neg (by decide), if_neg (by decide), if_pos rfl]
    by_cases hb : canBacktrack out = true
    · rw [if_pos hb]
      exact h.tail
    · rw [if_neg hb]
      cases rooted with
      | true => simpa using h
      | false =>
        simp only [Bool.not_false, if_true]
        exact ⟨h, Or.inr ⟨rfl, rfl, by simpa using hb⟩⟩
  · rw [if_neg h0, if_neg h1, if_neg h2]
    exact ⟨h, Or.inl ⟨h0, h1, h2, he⟩⟩

theorem foldl_cleanStep_canon (rooted : Bool) (es : List (List Char)) :
    ∀ out, Canon rooted out → (∀ e ∈ es, '/' ∉ e) →
      Canon rooted (es.foldl (cleanStep rooted) out) := by
  induction es with
  | nil => intro out h _; exact h
  | cons e rest ih =>
    intro out h hs
    rw [List.foldl_cons]
    exact ih _ (cleanStep_canon rooted out e h (hs e (by simp)))
      (fun x hx => hs x (List.mem_cons_of_mem _ hx))

theorem cleanElems_canon (s : List Char) : Canon (isRooted s) (cleanElems s) :=
  foldl_cleanStep_canon _ _ [] trivial (splitSep_mem_noSep s)

/-- Cleaning elements that are in shape already writes them all. -/
theorem foldl_cleanStep_replay (rooted : Bool) :
    ∀ out, Canon rooted out → out.reverse.foldl (cleanStep rooted) [] = out
  | [], _ => rfl
  | top :: rest, h => by
    rw [List.reverse_cons, List.foldl_append, foldl_cleanStep_replay rooted rest h.1]
    simp only [List.foldl_cons, List.foldl_nil]
    rcases h.2 with hp | ⟨hd, hr, hb⟩
    · exact cleanStep_plain rooted rest top hp.1 hp.2.1 hp.2.2.1
    · subst hd
      subst hr
      unfold cleanStep
      rw [if_neg (by decide), if_neg (by decide), if_pos rfl, hb]
      simp

end filepath

namespace filepath

theorem isRooted_append_of_ne_nil (s t : List Char) (h : s ≠ []) :
    isRooted (s ++ t) = isRooted s := by
  cases s with
  | nil => exact absurd rfl h
  | cons c cs => rfl

theorem isRooted_of_noSep (e : List Char) (h : '/' ∉ e) : isRooted e = false := by
  cases e with
  | nil => rfl
  | cons c cs =>
    have : c ≠ '/' := fun hc => h (by simp [hc])
    simp [isRooted, this]

theorem joinSep_cons_ne_nil (e : List Char) (es : List (List Char)) (h : e ≠ []) :
    joinSep (e :: es) ≠ [] := by
  cases es with
  | nil => exact h
  | cons e1 rest =>
    have : joinSep (e :: e1 :: rest) = e ++ '/' :: joinSep (e1 :: rest) := rfl
    rw [this]
    simp

theorem isRooted_joinSep_cons (e : List Char) (es : List (List Char)) (h : e ≠ []) :
    isRooted (joinSep (e :: es)) = isRooted e := by
  cases es with
  | nil => rfl
  | cons e1 rest =>
    have : joinSep (e :: e1 :: rest) = e ++ '/' :: joinSep (e1 :: rest) := rfl
    rw [this]
    exact isRooted_append_of_ne_nil e _ h

/-- What `Clean` returns is never empty. -/
theorem render_ne_nil (rooted : Bool) (out : List (List Char)) (h : Canon rooted out) :
    render rooted out ≠ [] := by
  unfold render
  cases rooted with
  | true => simp
  | false =>
    simp only [Bool.false_eq_true, if_false]
    by_cases ho : out = []
    · simp [ho]
    · rw [if_neg ho]
      cases hr : out.reverse with
      | nil => exact absurd (List.reverse_eq_nil_iff.mp hr) ho
      | cons e es =>
        exact joinSep_cons_ne_nil e es
          (h.ne_nil e (List.mem_reverse.mp (by rw [hr]; simp)))

/-- What `Clean` returns is rooted exactly when the path was. -/
theorem isRooted_render (rooted : Bool) (out : List (List Char)) (h : Canon rooted out) :
    isRooted (render rooted out) = rooted := by
  unfold render
  cases rooted with
  | true => simp [isRooted]
  | false =>
    simp only [Bool.false_eq_true, if_false]
    by_cases ho : out = []
    · simp [ho, isRooted]
    · rw [if_neg ho]
      cases hr : out.reverse with
      | nil => exact absurd (List.reverse_eq_nil_iff.mp hr) ho
      | cons e es =>
        have hm : e ∈ out := List.mem_reverse.mp (by rw [hr]; simp)
        rw [isRooted_joinSep_cons e es (h.ne_nil e hm)]
        exact isRooted_of_noSep e (h.noSep e hm)

/-- Splitting what `Clean` returned and cleaning it again gives the same
elements. -/
theorem foldl_cleanStep_render (rooted : Bool) (out : List (List Char))
    (h : Canon rooted out) :
    (splitSep (render rooted out)).foldl (cleanStep rooted) [] = out := by
  have hsplit : out ≠ [] → splitSep (joinSep out.reverse) = out.reverse := fun ho =>
    splitSep_joinSep out.reverse (fun hr => ho (List.reverse_eq_nil_iff.mp hr))
      (fun e he => h.noSep e (List.mem_reverse.mp he))
  unfold render
  by_cases ho : out = []
  · subst ho
    cases rooted <;> simp [splitSep, joinSep, cleanStep, consHead]
  · cases rooted with
    | true =>
      simp only [if_true]
      have : splitSep ('/' :: joinSep out.reverse) = [] :: splitSep (joinSep out.reverse) := by
        simp [splitSep]
      rw [this, hsplit ho, List.foldl_cons]
      have : cleanStep true [] [] = [] := by simp [cleanStep]
      rw [this]
      exact foldl_cleanStep_replay true out h
    | false =>
      simp only [Bool.false_eq_true, if_false, if_neg ho]
      rw [hsplit ho]
      exact foldl_cleanStep_replay false out h

theorem cleanElems_def (p : List Char) :
    cleanElems p = (splitSep p).foldl (cleanStep (isRooted p)) [] := rfl

/-- Cleaning `Clean(x) + "/" + f` gives the elements of `x + "/" + f`
cleaned. -/
theorem cleanElems_render_append (x f : List Char) (hx : x ≠ []) :
    cleanElems (render (isRooted x) (cleanElems x) ++ '/' :: f) = cleanElems (x ++ '/' :: f) ∧
      isRooted (render (isRooted x) (cleanElems x) ++ '/' :: f) = isRooted (x ++ '/' :: f) := by
  have hc := cleanElems_canon x
  have hr1 : isRooted (render (isRooted x) (cleanElems x) ++ '/' :: f) = isRooted x := by
    rw [isRooted_append_of_ne_nil _ _ (render_ne_nil _ _ hc), isRooted_render _ _ hc]
  have hr2 : isRooted (x ++ '/' :: f) = isRooted x := isRooted_append_of_ne_nil x _ hx
  refine ⟨?_, hr1.trans hr2.symm⟩
  have lhs : cleanElems (render (isRooted x) (cleanElems x) ++ '/' :: f) =
      (splitSep f).foldl (cleanStep (isRooted x)) (cleanElems x) := by
    rw [cleanElems_def (render (isRooted x) (cleanElems x) ++ '/' :: f), hr1,
      splitSep_append_sep, List.foldl_append, foldl_cleanStep_render _ _ hc]
  have rhs : cleanElems (x ++ '/' :: f) =
      (splitSep f).foldl (cleanStep (isRooted x)) (cleanElems x) := by
    rw [cleanElems_def (x ++ '/' :: f), hr2, splitSep_append_sep, List.foldl_append]
    rfl
  rw [lhs, rhs]

end filepath

namespace filepath

theorem mk_ne_empty (l : List Char) (h : l ≠ []) : String.mk l ≠ "" := by
  intro he
  exact h (congrArg String.data he)

theorem data_ne_nil (s : String) (h : s ≠ "") : s.data ≠ [] := by
  intro he
  apply h
  cases s
  simp only at he
  subst he
  rfl

theorem Clean_of_data (l : List Char) (h : l ≠ []) :
    Clean (String.mk l) = String.mk (render (isRooted l) (cleanElems l)) := by
  unfold Clean
  rw [if_neg (mk_ne_empty l h)]

theorem Clean_ne_empty (p : String) : Clean p ≠ "" := by
  unfold Clean
  split_ifs
  · decide
  · exact mk_ne_empty _ (render_ne_nil _ _ (cleanElems_canon _))

theorem Join_cons (a : String) (rest : List String) (ha : a ≠ "") :
    Join (a :: rest) = Clean (String.mk (joinSep ((a :: rest).map String.data))) := by
  simp [Join, List.dropWhile, ha]

/-- Joining onto a joined path is joining all the elements at once. -/
theorem Join_Join (a : String) (rest : List String) (f : String) (ha : a ≠ "") :
    Join [Join (a :: rest), f] = Join (a :: (rest ++ [f])) := by
  have hx : joinSep ((a :: rest).map String.data) ≠ [] := by
    rw [List.map_cons]
    exact joinSep_cons_ne_nil _ _ (data_ne_nil a ha)
  rw [Join_cons a rest ha, Join_cons a (rest ++ [f]) ha, Join_cons _ [f] (Clean_ne_empty _)]
  rw [Clean_of_data _ hx]
  have e1 : joinSep ((a :: (rest ++ [f])).map String.data) =
      joinSep ((a :: rest).map String.data) ++ '/' :: f.data := by
    rw [← joinSep_append_one _ _ (by simp)]
    simp
  have e2 : joinSep ([String.mk (render (isRooted (joinSep ((a :: rest).map String.data)))
        (cleanElems (joinSep ((a :: rest).map String.data)))), f].map String.data) =
      render (isRooted (joinSep ((a :: rest).map String.data)))
        (cleanElems (joinSep ((a :: rest).map String.data))) ++ '/' :: f.data := rfl
  rw [e1, e2, Clean_of_data _ (by simp), Clean_of_data _ (by simp)]
  obtain ⟨h1, h2⟩ := cleanElems_render_append _ f.data hx
  rw [h1, h2]

end filepath

/-! ## The last element of a path -/

namespace filepath

theorem dropWhile_head_not {α : Type} (p : α → Bool) :
    ∀ (l : List α) (a : α) (rest : List α), l.dropWhile p = a :: rest → p a = false
  | [], a, rest, h => by cases h
  | x :: xs, a, rest, h => by
    rw [List.dropWhile_cons] at h
    by_cases hx : p x = true
    · rw [if_pos hx] at h
      exact dropWhile_head_not p xs a rest h
    · rw [if_neg hx] at h
      injection h with h1 _
      subst h1
      simpa using hx

/-- A path is the part up to its last separator and a last element. -/
theorem upToLastSep_split (s : List Char) :
    ∃ l, '/' ∉ l ∧ s = upToLastSep s ++ l ∧
      (upToLastSep s = [] ∨ ∃ u, upToLastSep s = u ++ ['/']) := by
  have h := List.takeWhile_append_dropWhile (fun c => decide (c ≠ '/')) s.reverse
  refine ⟨(s.reverse.takeWhile (fun c => decide (c ≠ '/'))).reverse, ?_, ?_, ?_⟩
  · intro hm
    have := List.mem_takeWhile_imp (List.mem_reverse.mp hm)
    simp at this
  · unfold upToLastSep
    rw [← List.reverse_append, h, List.reverse_reverse]
  · unfold upToLastSep
    cases hd : s.reverse.dropWhile (fun c => decide (c ≠ '/')) with
    | nil => exact Or.inl rfl
    | cons a rest =>
      have ha := dropWhile_head_not _ _ a rest hd
      have : a = '/' := by simpa using ha
      subst this
      exact Or.inr ⟨rest.reverse, by simp⟩

/-- The elements of a path and of the part up to its last separator. -/
theorem split_last (s : List Char) :
    ∃ init l, '/' ∉ l ∧ s = upToLastSep s ++ l ∧
      (∀ w, '/' ∉ w → splitSep (s ++ w) = init ++ [l ++ w]) ∧
      ((upToLastSep s = [] ∧ init = []) ∨
        (upToLastSep s ≠ [] ∧ splitSep (upToLastSep s) = init ++ [[]] ∧
          isRooted (upToLastSep s) = isRooted s)) := by
  obtain ⟨l, hl, hs, hu⟩ := upToLastSep_split s
  rcases hu with hu | ⟨u, hu⟩
  · refine ⟨[], l, hl, hs, fun w hw => ?_, Or.inl ⟨hu, rfl⟩⟩
    rw [hu, List.nil_append] at hs
    rw [hs, List.nil_append]
    exact splitSep_noSep _ (by simp [hl, hw])
  · refine ⟨splitSep u, l, hl, hs, fun w hw => ?_, Or.inr ⟨?_, ?_, ?_⟩⟩
    · conv_lhs => rw [hs, hu]
      rw [List.append_assoc, List.append_assoc, List.singleton_append, splitSep_append_sep,
        splitSep_noSep (l ++ w) (by simp [hl, hw])]
    · rw [hu]
      simp
    · rw [hu, splitSep_append_sep]
      rfl
    · conv_rhs => rw [hs]
      exact (isRooted_append_of_ne_nil _ l (by rw [hu]; simp)).symm

end filepath
/-! ## Walking through a filesystem -/

namespace os

theorem lookup_nil (fs : FS) : fs.lookup [] = some (Entry.dir 0) := by
  simp [FS.lookup]

theorem lookup_cons (fs : FS) (c : List Char) (k : Key) :
    fs.lookup (c :: k) = fs.entries (c :: k) := by
  simp [FS.lookup]

theorem ne_nil_of_lookup_none (fs : FS) (k : Key) (h : fs.lookup k = none) : k ≠ [] := by
  intro hk
  rw [hk, lookup_nil] at h
  cases h

theorem lookup_setEntry (fs : FS) (k : Key) (e : Option Entry) (q : Key) (hk : k ≠ []) :
    (fs.setEntry k e).lookup q = if q = k then e else fs.lookup q := by
  unfold FS.lookup FS.setEntry
  by_cases hq : q = []
  · subst hq
    simp [Ne.symm hk]
  · simp [hq]

theorem lookup_setEntry_self (fs : FS) (k : Key) (e : Option Entry) (hk : k ≠ []) :
    (fs.setEntry k e).lookup k = e := by
  rw [lookup_setEntry fs k e k hk, if_pos rfl]

theorem lookup_setEntry_of_ne (fs : FS) (k : Key) (e : Option Entry) (q : Key) (h : q ≠ k) :
    (fs.setEntry k e).lookup q = fs.lookup q := by
  unfold FS.lookup FS.setEntry
  by_cases hq : q = []
  · simp [hq]
  · simp [hq, h]

theorem walk_nil (fs : FS) (f : Bool) (cur : Key) :
    walk fs f cur [] = Walk.found cur (fs.lookup cur) := by
  simp [walk]

/-- One step of a walk from a directory. -/
theorem walk_cons_dir (fs : FS) (f : Bool) (cur : Key) (c : List Char)
    (rest : List (List Char)) (t : Nat) (h : fs.lookup cur = some (Entry.dir t)) :
    walk fs f cur (c :: rest) =
      if c = [] ∨ c = ['.'] then walk fs f cur rest
      else if c = ['.', '.'] then walk fs f cur.tail rest
      else
        match fs.lookup (c :: cur) with
        | some (Entry.symlink tg) =>
          if rest = [] ∧ f = false then Walk.found (c :: cur) (some (Entry.symlink tg))
          else Walk.link cur tg rest
        | _ => walk fs f (c :: cur) rest := by
  rw [walk, h]

/-- A walk does not go on from what is not a directory. -/
theorem walk_cons_fail (fs : FS) (f : Bool) (cur : Key) (c : List Char)
    (rest : List (List Char)) (h : ∀ t, fs.lookup cur ≠ some (Entry.dir t)) :
    ∃ e, walk fs f cur (c :: rest) = Walk.fail e := by
  rw [walk]
  cases hl : fs.lookup cur with
  | none => exact ⟨_, rfl⟩
  | some e =>
    cases e with
    | dir t => exact absurd hl (h t)
    | file i => exact ⟨_, rfl⟩
    | symlink tg => exact ⟨_, rfl⟩

theorem walk_cons_stay (fs : FS) (f : Bool) (cur : Key) (c : List Char)
    (rest : List (List Char)) (t : Nat) (h : fs.lookup cur = some (Entry.dir t))
    (hc : c = [] ∨ c = ['.']) : walk fs f cur (c :: rest) = walk fs f cur rest := by
  rw [walk_cons_dir fs f cur c rest t h, if_pos hc]

theorem walk_cons_up (fs : FS) (f : Bool) (cur : Key) (rest : List (List Char)) (t : Nat)
    (h : fs.lookup cur = some (Entry.dir t)) :
    walk fs f cur (['.', '.'] :: rest) = walk fs f cur.tail rest := by
  rw [walk_cons_dir fs f cur _ rest t h, if_neg (by decide), if_pos rfl]

theorem walk_cons_link (fs : FS) (f : Bool) (cur : Key) (c : List Char)
    (rest : List (List Char)) (t : Nat) (tg : String) (h : fs.lookup cur = some (Entry.dir t))
    (h1 : ¬ (c = [] ∨ c = ['.'])) (h2 : c ≠ ['.', '.'])
    (hl : fs.lookup (c :: cur) = some (Entry.symlink tg)) :
    walk fs f cur (c :: rest) =
      if rest = [] ∧ f = false then Walk.found (c :: cur) (some (Entry.symlink tg))
      else Walk.link cur tg rest := by
  rw [walk_cons_dir fs f cur c rest t h, if_neg h1, if_neg h2, hl]

theorem walk_cons_down (fs : FS) (f : Bool) (cur : Key) (c : List Char)
    (rest : List (List Char)) (t : Nat) (h : fs.lookup cur = some (Entry.dir t))
    (h1 : ¬ (c = [] ∨ c = ['.'])) (h2 : c ≠ ['.', '.'])
    (hl : ∀ tg, fs.lookup (c :: cur) ≠ some (Entry.symlink tg)) :
    walk fs f cur (c :: rest) = walk fs f (c :: cur) rest := by
  rw [walk_cons_dir fs f cur c rest t h, if_neg h1, if_neg h2]
  split
  · rename_i tg hs
    exact absurd hs (hl tg)
  · rfl

/-- The ways a walk can go, one step at a time. -/
theorem walk_cases (fs : FS) (f : Bool) (P : Key → List (List Char) → Walk → Prop)
    (done : ∀ cur, P cur [] (Walk.found cur (fs.lookup cur)))
    (fail : ∀ cur c rest e, (∀ t, fs.lookup cur ≠ some (Entry.dir t)) →
      P cur (c :: rest) (Walk.fail e))
    (stay : ∀ cur c rest t, fs.lookup cur = some (Entry.dir t) → (c = [] ∨ c = ['.']) →
      P cur rest (walk fs f cur rest) → P cur (c :: rest) (walk fs f cur rest))
    (up : ∀ cur rest t, fs.lookup cur = some (Entry.dir t) →
      P cur.tail rest (walk fs f cur.tail rest) →
      P cur (['.', '.'] :: rest) (walk fs f cur.tail rest))
    (last : ∀ cur c t tg, fs.lookup cur = some (Entry.dir t) → ¬ (c = [] ∨ c = ['.']) →
      c ≠ ['.', '.'] → fs.lookup (c :: cur) = some (Entry.symlink tg) → f = false →
      P cur [c] (Walk.found (c :: cur) (some (Entry.symlink tg))))
    (link : ∀ cur c rest t tg, fs.lookup cur = some (Entry.dir t) → ¬ (c = [] ∨ c = ['.']) →
      c ≠ ['.', '.'] → fs.lookup (c :: cur) = some (Entry.symlink tg) →
      ¬ (rest = [] ∧ f = false) → P cur (c :: rest) (Walk.link cur tg rest))
    (down : ∀ cur c rest t, fs.lookup cur = some (Entry.dir t) → ¬ (c = [] ∨ c = ['.']) →
      c ≠ ['.', '.'] → (∀ tg, fs.lookup (c :: cur) ≠ some (Entry.symlink tg)) →
      P (c :: cur) rest (walk fs f (c :: cur) rest) →
      P cur (c :: rest) (walk fs f (c :: cur) rest)) :
    ∀ (comps : List (List Char)) (cur : Key), P cur comps (walk fs f cur comps)
  | [], cur => by
    rw [walk_nil]
    exact done cur
  | c :: rest, cur => by
    by_cases hd : ∃ t, fs.lookup cur = some (Entry.dir t)
    · obtain ⟨t, ht⟩ := hd
      by_cases h1 : c = [] ∨ c = ['.']
      · rw [walk_cons_stay fs f cur c rest t ht h1]
        exact stay cur c rest t ht h1
          (walk_cases fs f P done fail stay up last link down rest cur)
      · by_cases h2 : c = ['.', '.']
        · subst h2
          rw [walk_cons_up fs f cur rest t ht]
          exact up cur rest t ht
            (walk_cases fs f P done fail stay up last link down rest cur.tail)
        · by_cases hs : ∃ tg, fs.lookup (c :: cur) = some (Entry.symlink tg)
          · obtain ⟨tg, htg⟩ := hs
            rw [walk_cons_link fs f cur c rest t tg ht h1 h2 htg]
            by_cases hr : rest = [] ∧ f = false
            · rw [if_pos hr]
              obtain ⟨hr1, hr2⟩ := hr
              subst hr1
              exact last cur c t tg ht h1 h2 htg hr2
            · rw [if_neg hr]
              exact link cur c rest t tg ht h1 h2 htg hr
          · have hs2 : ∀ tg, fs.lookup (c :: cur) ≠ some (Entry.symlink tg) :=
              fun tg h => hs ⟨tg, h⟩
            rw [walk_cons_down fs f cur c rest t ht h1 h2 hs2]
            exact down cur c rest t ht h1 h2 hs2
              (walk_cases fs f P done fail stay up last link down rest (c :: cur))
    · have hn : ∀ t, fs.lookup cur ≠ some (Entry.dir t) := fun t h => hd ⟨t, h⟩
      obtain ⟨e, he⟩ := walk_cons_fail fs f cur c rest hn
      rw [he]
      exact fail cur c rest e hn

/-- What a walk finds is what is there. -/
theorem walk_found_lookup (fs : FS) (f : Bool) (comps : List (List Char)) (cur : Key) :
    ∀ k e, walk fs f cur comps = Walk.found k e → e = fs.lookup k := by
  refine walk_cases fs f (fun _ _ r => ∀ k e, r = Walk.found k e → e = fs.lookup k)
    ?_ ?_ ?_ ?_ ?_ ?_ ?_ comps cur
  · intro cur k e h
    cases h
    rfl
  · intro cur c rest e _ k e2 h
    cases h
  · intro cur c rest t _ _ ih
    exact ih
  · intro cur rest t _ ih
    exact ih
  · intro cur c t tg _ _ _ hl _ k e h
    cases h
    exact hl.symm
  · intro cur c rest t tg _ _ _ _ _ k e h
    cases h
  · intro cur c rest t _ _ _ _ ih
    exact ih

theorem resolveFrom_of_found (fs : FS) (f : Bool) (n : Nat) (cur : Key)
    (comps : List (List Char)) (k : Key) (e : Option Entry)
    (h : walk fs f cur comps = Walk.found k e) :
    resolveFrom fs f n cur comps = Walk.found k e := by
  cases n <;> rw [resolveFrom, h]

theorem resolveFrom_of_fail (fs : FS) (f : Bool) (n : Nat) (cur : Key)
    (comps : List (List Char)) (e : GoError) (h : walk fs f cur comps = Walk.fail e) :
    resolveFrom fs f n cur comps = Walk.fail e := by
  cases n <;> rw [resolveFrom, h]

theorem resolveFrom_of_link (fs : FS) (f : Bool) (n : Nat) (cur : Key)
    (comps : List (List Char)) (d : Key) (tg : String) (rest : List (List Char))
    (h : walk fs f cur comps = Walk.link d tg rest) :
    resolveFrom fs f (n + 1) cur comps =
      if tg = "" then Walk.fail GoError.ENOENT
      else
        resolveFrom fs f n (if filepath.isRooted tg.data then [] else d)
          (filepath.splitSep tg.data ++ rest) := by
  rw [resolveFrom, h]

theorem resolveFrom_of_link_zero (fs : FS) (f : Bool) (cur : Key)
    (comps : List (List Char)) (d : Key) (tg : String) (rest : List (List Char))
    (h : walk fs f cur comps = Walk.link d tg rest) :
    resolveFrom fs f 0 cur comps = Walk.fail GoError.ELOOP := by
  rw [resolveFrom, h]

/-- What a resolution finds is what is there. -/
theorem resolveFrom_found_lookup (fs : FS) (f : Bool) :
    ∀ (n : Nat) (cur : Key) (comps : List (List Char)) (k : Key) (e : Option Entry),
      resolveFrom fs f n cur comps = Walk.found k e → e = fs.lookup k
  | 0, cur, comps, k, e, h => by
    cases hw : walk fs f cur comps with
    | found k2 e2 =>
      rw [resolveFrom_of_found fs f 0 cur comps k2 e2 hw] at h
      cases h
      exact walk_found_lookup fs f comps cur _ _ hw
    | link d tg rest =>
      rw [resolveFrom_of_link_zero fs f cur comps d tg rest hw] at h
      cases h
    | fail err =>
      rw [resolveFrom_of_fail fs f 0 cur comps err hw] at h
      cases h
  | n + 1, cur, comps, k, e, h => by
    cases hw : walk fs f cur comps with
    | found k2 e2 =>
      rw [resolveFrom_of_found fs f _ cur comps k2 e2 hw] at h
      cases h
      exact walk_found_lookup fs f comps cur _ _ hw
    | link d tg rest =>
      rw [resolveFrom_of_link fs f n cur comps d tg rest hw] at h
      by_cases htg : tg = ""
      · rw [if_pos htg] at h
        cases h
      · rw [if_neg htg] at h
        exact resolveFrom_found_lookup fs f n _ _ k e h
    | fail err =>
      rw [resolveFrom_of_fail fs f _ cur comps err hw] at h
      cases h

end os
/-! ## Creating a directory -/

namespace os

/-- Empty elements at the end of a path stay in a directory. -/
theorem walk_empties (fs : FS) (f : Bool) (k : Key) (t : Nat)
    (h : fs.lookup k = some (Entry.dir t)) :
    ∀ m : Nat, walk fs f k (List.replicate m []) = Walk.found k (some (Entry.dir t))
  | 0 => by
    rw [List.replicate_zero, walk_nil, h]
  | m + 1 => by
    rw [List.replicate_succ, walk_cons_stay fs f k [] _ t h (Or.inl rfl)]
    exact walk_empties fs f k t h m

/-- A walk that ends at a name that is not there ends at the directory made
under that name, also when the path goes on with separators. -/
theorem walk_setEntry_dir (fs : FS) (f : Bool) (k : Key) (t : Nat) (m : Nat)
    (hk : fs.lookup k = none) (comps : List (List Char)) (cur : Key) :
    (walk fs f cur comps = Walk.found k none →
      walk (fs.setEntry k (some (Entry.dir t))) true cur (comps ++ List.replicate m []) =
        Walk.found k (some (Entry.dir t))) ∧
    (∀ d tg rest, walk fs f cur comps = Walk.link d tg rest →
      walk (fs.setEntry k (some (Entry.dir t))) true cur (comps ++ List.replicate m []) =
        Walk.link d tg (rest ++ List.replicate m [])) := by
  have hne : k ≠ [] := ne_nil_of_lookup_none fs k hk
  have hsame : ∀ q e, fs.lookup q = some e →
      (fs.setEntry k (some (Entry.dir t))).lookup q = some e := by
    intro q e hq
    rw [lookup_setEntry_of_ne fs k _ q (fun h => by rw [h, hk] at hq; cases hq), hq]
  refine walk_cases fs f (fun cur comps r =>
    (r = Walk.found k none →
      walk (fs.setEntry k (some (Entry.dir t))) true cur (comps ++ List.replicate m []) =
        Walk.found k (some (Entry.dir t))) ∧
    (∀ d tg rest, r = Walk.link d tg rest →
      walk (fs.setEntry k (some (Entry.dir t))) true cur (comps ++ List.replicate m []) =
        Walk.link d tg (rest ++ List.replicate m []))) ?_ ?_ ?_ ?_ ?_ ?_ ?_ comps cur
  · intro cur
    refine ⟨fun h => ?_, fun d tg rest h => (by cases h)⟩
    injection h with h1 h2
    subst h1
    rw [List.nil_append]
    exact walk_empties _ true cur t (lookup_setEntry_self fs cur _ hne) m
  · intro cur c rest e _
    exact ⟨fun h => (by cases h), fun d tg rest h => (by cases h)⟩
  · intro cur c rest t0 ht hc ih
    rw [List.cons_append, walk_cons_stay _ true cur c _ t0 (hsame cur _ ht) hc]
    exact ih
  · intro cur rest t0 ht ih
    rw [List.cons_append, walk_cons_up _ true cur _ t0 (hsame cur _ ht)]
    exact ih
  · intro cur c t0 tg _ _ _ _ _
    exact ⟨fun h => (by cases h), fun d tg rest h => (by cases h)⟩
  · intro cur c rest t0 tg ht h1 h2 hl hr
    refine ⟨fun h => (by cases h), fun d tg2 rest2 h => ?_⟩
    cases h
    rw [List.cons_append, walk_cons_link _ true cur c _ t0 tg (hsame cur _ ht) h1 h2
      (hsame _ _ hl), if_neg (by simp)]
  · intro cur c rest t0 ht h1 h2 hl ih
    rw [List.cons_append, walk_cons_down _ true cur c _ t0 (hsame cur _ ht) h1 h2 ?_]
    · exact ih
    · intro tg
      by_cases hq : c :: cur = k
      · rw [hq, lookup_setEntry_self fs k _ hne]
        simp
      · rw [lookup_setEntry_of_ne fs k _ _ hq]
        exact hl tg

/-- The same for a walk that follows symbolic links. -/
theorem resolveFrom_setEntry_dir (fs : FS) (f : Bool) (k : Key) (t : Nat) (m : Nat)
    (hk : fs.lookup k = none) :
    ∀ (n : Nat) (cur : Key) (comps : List (List Char)),
      resolveFrom fs f n cur comps = Walk.found k none →
      resolveFrom (fs.setEntry k (some (Entry.dir t))) true n cur
        (comps ++ List.replicate m []) = Walk.found k (some (Entry.dir t))
  | 0, cur, comps, h => by
    obtain ⟨h1, h2⟩ := walk_setEntry_dir fs f k t m hk comps cur
    rw [resolveFrom] at h ⊢
    cases hw : walk fs f cur comps with
    | found k2 e2 =>
      rw [hw] at h
      cases h
      rw [h1 hw]
    | link d tg rest =>
      rw [hw] at h
      cases h
    | fail e =>
      rw [hw] at h
      cases h
  | n + 1, cur, comps, h => by
    obtain ⟨h1, h2⟩ := walk_setEntry_dir fs f k t m hk comps cur
    rw [resolveFrom] at h ⊢
    cases hw : walk fs f cur comps with
    | found k2 e2 =>
      rw [hw] at h
      cases h
      rw [h1 hw]
    | link d tg rest =>
      rw [hw] at h
      rw [h2 d tg rest hw]
      simp only at h ⊢
      by_cases htg : tg = ""
      · rw [if_pos htg] at h
        cases h
      · rw [if_neg htg] at h ⊢
        rw [← List.append_assoc]
        exact resolveFrom_setEntry_dir fs f k t m hk n _ _ h
    | fail e =>
      rw [hw] at h
      cases h

/-- A directory found without following the last symbolic link is found
when following it. -/
theorem walk_follow (fs : FS) (comps : List (List Char)) (cur : Key) :
    (∀ k e, walk fs false cur comps = Walk.found k e → (∀ tg, e ≠ some (Entry.symlink tg)) →
      walk fs true cur comps = Walk.found k e) ∧
    (∀ d tg rest, walk fs false cur comps = Walk.link d tg rest →
      walk fs true cur comps = Walk.link d tg rest) := by
  induction comps generalizing cur with
  | nil =>
    refine ⟨fun k e h _ => ?_, fun d tg rest h => ?_⟩
    · rw [walk_nil] at h ⊢
      exact h
    · rw [walk_nil] at h
      cases h
  | cons c rest ih =>
    by_cases hd : ∃ t, fs.lookup cur = some (Entry.dir t)
    · obtain ⟨t, ht⟩ := hd
      by_cases h1 : c = [] ∨ c = ['.']
      · rw [walk_cons_stay fs _ cur c rest t ht h1, walk_cons_stay fs _ cur c rest t ht h1]
        exact ih cur
      · by_cases h2 : c = ['.', '.']
        · subst h2
          rw [walk_cons_up fs _ cur rest t ht, walk_cons_up fs _ cur rest t ht]
          exact ih cur.tail
        · by_cases hs : ∃ tg, fs.lookup (c :: cur) = some (Entry.symlink tg)
          · obtain ⟨tg, htg⟩ := hs
            rw [walk_cons_link fs _ cur c rest t tg ht h1 h2 htg,
              walk_cons_link fs _ cur c rest t tg ht h1 h2 htg]
            by_cases hr : rest = []
            · subst hr
              refine ⟨fun k e h hns => ?_, fun d tg2 rest2 h => ?_⟩
              · rw [if_pos ⟨rfl, rfl⟩] at h
                cases h
                exact absurd rfl (hns tg)
              · rw [if_pos ⟨rfl, rfl⟩] at h
                cases h
            · rw [if_neg (fun h => hr h.1), if_neg (fun h => hr h.1)]
              exact ⟨fun k e h _ => h, fun d tg2 rest2 h => h⟩
          · have hs2 : ∀ tg, fs.lookup (c :: cur) ≠ some (Entry.symlink tg) :=
              fun tg h => hs ⟨tg, h⟩
            rw [walk_cons_down fs _ cur c rest t ht h1 h2 hs2,
              walk_cons_down fs _ cur c rest t ht h1 h2 hs2]
            exact ih (c :: cur)
    · have hn : ∀ t, fs.lookup cur ≠ some (Entry.dir t) := fun t h => hd ⟨t, h⟩
      obtain ⟨e, he⟩ := walk_cons_fail fs false cur c rest hn
      rw [he]
      exact ⟨fun k e h => (by cases h), fun d tg rest h => (by cases h)⟩

theorem resolveFrom_follow (fs : FS) :
    ∀ (n : Nat) (cur : Key) (comps : List (List Char)) (k : Key) (t : Nat),
      resolveFrom fs false n cur comps = Walk.found k (some (Entry.dir t)) →
      resolveFrom fs true n cur comps = Walk.found k (some (Entry.dir t))
  | 0, cur, comps, k, t, h => by
    obtain ⟨h1, h2⟩ := walk_follow fs comps cur
    rw [resolveFrom] at h ⊢
    cases hw : walk fs false cur comps with
    | found k2 e2 =>
      rw [hw] at h
      cases h
      rw [h1 _ _ hw (by simp)]
    | link d tg rest =>
      rw [hw] at h
      cases h
    | fail e =>
      rw [hw] at h
      cases h
  | n + 1, cur, comps, k, t, h => by
    obtain ⟨h1, h2⟩ := walk_follow fs comps cur
    rw [resolveFrom] at h ⊢
    cases hw : walk fs false cur comps with
    | found k2 e2 =>
      rw [hw] at h
      cases h
      rw [h1 _ _ hw (by simp)]
    | link d tg rest =>
      rw [hw] at h
      rw [h2 d tg rest hw]
      simp only at h ⊢
      by_cases htg : tg = ""
      · rw [if_pos htg] at h
        cases h
      · rw [if_neg htg] at h ⊢
        exact resolveFrom_follow fs n _ _ k t h
    | fail e =>
      rw [hw] at h
      cases h

end os
namespace filepath

theorem splitSep_replicate_sep : ∀ m : Nat,
    splitSep (List.replicate m '/') = List.replicate (m + 1) []
  | 0 => rfl
  | m + 1 => by
    rw [List.replicate_succ, splitSep, if_pos rfl, splitSep_replicate_sep m]
    rfl

theorem splitSep_append_replicate_sep (d : List Char) : ∀ m : Nat,
    splitSep (d ++ List.replicate m '/') = splitSep d ++ List.replicate m []
  | 0 => by simp
  | m + 1 => by
    rw [List.replicate_succ, splitSep_append_sep, splitSep_replicate_sep]

/-- A path is the path without the separators it ends in, and those
separators. -/
theorem dropTrailingSep_append (s : List Char) :
    ∃ m : Nat, s = dropTrailingSep s ++ List.replicate m '/' := by
  have h := List.takeWhile_append_dropWhile (fun c => decide (c = '/')) s.reverse
  have ht : ∀ c ∈ (s.reverse.takeWhile (fun c => decide (c = '/'))).reverse, c = '/' := by
    intro c hc
    have := List.mem_takeWhile_imp (List.mem_reverse.mp hc)
    simpa using this
  refine ⟨(s.reverse.takeWhile (fun c => decide (c = '/'))).reverse.length, ?_⟩
  rw [← List.eq_replicate_of_mem ht]
  unfold dropTrailingSep
  rw [← List.reverse_append, h, List.reverse_reverse]

/-- The elements of a path are those of the path without the separators it
ends in, and one empty element for each of these. -/
theorem splitSep_dropTrailingSep (s : List Char) :
    ∃ m : Nat, splitSep s = splitSep (dropTrailingSep s) ++ List.replicate m [] := by
  obtain ⟨m, hm⟩ := dropTrailingSep_append s
  refine ⟨m, ?_⟩
  conv_lhs => rw [hm]
  exact splitSep_append_replicate_sep _ m

end filepath

namespace os

theorem start_setEntry (fs : FS) (k : Key) (e : Option Entry) (path : String) :
    (fs.setEntry k e).start path = fs.start path := rfl

/-- After `Mkdir` has succeeded, `Stat` finds a directory. -/
theorem Mkdir_ok (fs : FS) (name : String) (h : (Mkdir fs name).2 = none) :
    ∃ t, Stat (Mkdir fs name).1 name = Except.ok ⟨t, true⟩ := by
  unfold Mkdir at h ⊢
  by_cases hn : name = ""
  · rw [if_pos hn] at h
    cases h
  · rw [if_neg hn] at h ⊢
    obtain ⟨m, hm⟩ := filepath.splitSep_dropTrailingSep name.data
    cases hr : resolveFrom fs false 40 (fs.start name)
        (filepath.splitSep (filepath.dropTrailingSep name.data)) with
    | fail e =>
      rw [hr] at h
      cases h
    | link d tg rest =>
      rw [hr] at h
      cases h
    | found k e =>
      rw [hr] at h
      cases e with
      | some en =>
        cases h
      | none =>
        simp only at h ⊢
        by_cases hden : fs.denied k = true
        · rw [if_pos hden] at h
          cases h
        · rw [if_neg hden]
          have hk : fs.lookup k = none := (resolveFrom_found_lookup fs false 40 _ _ k none hr).symm
          have := resolveFrom_setEntry_dir fs false k fs.clock m hk 40 _ _ hr
          refine ⟨fs.clock, ?_⟩
          unfold Stat statWith resolve
          rw [if_neg hn, start_setEntry, hm, this]
          rfl

/-- After `Lstat` has found a directory, `Stat` finds it. -/
theorem Stat_of_Lstat_dir (fs : FS) (name : String) (info : FileInfo)
    (h : Lstat fs name = Except.ok info) (hd : info.IsDir = true) :
    Stat fs name = Except.ok info := by
  unfold Lstat statWith at h
  unfold Stat statWith
  by_cases hn : name = ""
  · rw [if_pos hn] at h
    cases h
  · rw [if_neg hn] at h ⊢
    unfold resolve at h ⊢
    cases hr : resolveFrom fs false 40 (fs.start name) (filepath.splitSep name.data) with
    | fail e =>
      rw [hr] at h
      cases h
    | link d tg rest =>
      rw [hr] at h
      cases h
    | found k e =>
      rw [hr] at h
      cases e with
      | none => cases h
      | some en =>
        cases en with
        | dir t =>
          rw [resolveFrom_follow fs 40 _ _ k t hr]
          exact h
        | file i =>
          simp only [FS.infoOf] at h
          cases h
          cases hd
        | symlink tg =>
          simp only [FS.infoOf] at h
          cases h
          cases hd

/-- After `MkdirAll` has succeeded, `Stat` finds a directory. -/
theorem mkdirAll_ok (fs : FS) (fuel : Nat) (path : String)
    (h : (mkdirAll fs fuel path).2 = none) :
    ∃ t, Stat (mkdirAll fs fuel path).1 path = Except.ok ⟨t, true⟩ := by
  revert h
  cases fuel with
  | zero =>
    rw [mkdirAll]
    intro h
    cases h
  | succ fuel =>
    rw [mkdirAll]
    cases hs : Stat fs path with
    | ok info =>
      simp only
      by_cases hd : info.IsDir = true
      · rw [if_pos hd]
        intro _
        refine ⟨info.ModTime, ?_⟩
        rw [hs]
        cases info
        cases hd
        rfl
      · rw [if_neg hd]
        intro h
        cases h
    | error e0 =>
      simp only
      rcases (if parentOf path ≠ "" then mkdirAll fs fuel (parentOf path)
          else (fs, none)) with ⟨fs1, e1⟩
      cases e1 with
      | some err =>
        intro h
        cases h
      | none =>
        simp only
        have hm := Mkdir_ok fs1 path
        rcases hmk : Mkdir fs1 path with ⟨fs2, e2⟩
        rw [hmk] at hm
        cases e2 with
        | none =>
          intro _
          exact hm rfl
        | some err =>
          simp only
          cases hl : Lstat fs2 path with
          | error e3 =>
            intro h
            cases h
          | ok info =>
            simp only
            by_cases hd : info.IsDir = true
            · rw [if_pos hd]
              intro _
              refine ⟨info.ModTime, ?_⟩
              rw [Stat_of_Lstat_dir fs2 path info hl hd]
              cases info
              cases hd
              rfl
            · rw [if_neg hd]
              intro h
              cases h

/-- After `MkdirAll` has succeeded, `Stat` finds a directory. -/
theorem MkdirAll_ok (fs : FS) (path : String) (h : (MkdirAll fs path).2 = none) :
    ∃ t, Stat (MkdirAll fs path).1 path = Except.ok ⟨t, true⟩ :=
  mkdirAll_ok fs _ path h

end os
/-! ## The application-data directory -/

namespace utils

/-- What `GetAppDataPath` returns when the directory it settles on can be
created. -/
theorem GetAppDataPath_ok (env : String → Option String) (fs : os.FS) (filename : String)
    (dir : String) (hd : appDataDir env = dir) (h : (os.MkdirAll fs dir).2 = none) :
    GetAppDataPath env fs filename =
        ((os.MkdirAll fs dir).1, filepath.Join [dir, filename], none) ∧
      ∃ t, os.Stat (GetAppDataPath env fs filename).1 dir = Except.ok ⟨t, true⟩ := by
  subst hd
  have hk := os.MkdirAll_ok fs (appDataDir env) h
  have hv : GetAppDataPath env fs filename =
      ((os.MkdirAll fs (appDataDir env)).1, filepath.Join [appDataDir env, filename], none) := by
    unfold GetAppDataPath
    rcases hm : os.MkdirAll fs (appDataDir env) with ⟨fs1, e⟩
    rw [hm] at h
    cases h
    rfl
  refine ⟨hv, ?_⟩
  rw [hv]
  exact hk

end utils

/-- C8: whenever the directory can be created (`os.MkdirAll` returns no
error), `GetAppDataPath` returns no error and the path
`Join(APPDATA, AppName, filename)` when `APPDATA` is not empty, whatever
`HOME` is; else `Join(HOME, ".local", "share", AppName, filename)` when
`HOME` is not empty; else `Join(AppName, filename)`; in each case `os.Stat`
finds the application-data directory (the same path without `filename`) to be
a directory after the call.  A variable set to the empty string counts as
unset: the function sees the environment through `Getenv` alone, which gives
the empty string for both. -/
theorem utils.GetAppDataPath_fallback_chain (env : String → Option String) (fs : os.FS)
    (filename : String) :
    (os.Getenv env "APPDATA" ≠ "" →
      (os.MkdirAll fs (filepath.Join [os.Getenv env "APPDATA", version.AppName])).2 = none →
      utils.GetAppDataPath env fs filename =
          ((os.MkdirAll fs (filepath.Join [os.Getenv env "APPDATA", version.AppName])).1,
            filepath.Join [os.Getenv env "APPDATA", version.AppName, filename], none) ∧
        ∃ t, os.Stat (utils.GetAppDataPath env fs filename).1
          (filepath.Join [os.Getenv env "APPDATA", version.AppName]) = Except.ok ⟨t, true⟩) ∧
    (os.Getenv env "APPDATA" = "" → os.Getenv env "HOME" ≠ "" →
      (os.MkdirAll fs (filepath.Join [os.Getenv env "HOME", ".local", "share",
        version.AppName])).2 = none →
      utils.GetAppDataPath env fs filename =
          ((os.MkdirAll fs (filepath.Join [os.Getenv env "HOME", ".local", "share",
              version.AppName])).1,
            filepath.Join [os.Getenv env "HOME", ".local", "share", version.AppName, filename],
            none) ∧
        ∃ t, os.Stat (utils.GetAppDataPath env fs filename).1
          (filepath.Join [os.Getenv env "HOME", ".local", "share", version.AppName])
            = Except.ok ⟨t, true⟩) ∧
    (os.Getenv env "APPDATA" = "" → os.Getenv env "HOME" = "" →
      (os.MkdirAll fs version.AppName).2 = none →
      utils.GetAppDataPath env fs filename =
          ((os.MkdirAll fs version.AppName).1, filepath.Join [version.AppName, filename],
            none) ∧
        ∃ t, os.Stat (utils.GetAppDataPath env fs filename).1 version.AppName
          = Except.ok ⟨t, true⟩) ∧
    (∀ key, (env key = none ∨ env key = some "") → os.Getenv env key = "") ∧
    (∀ env2 : String → Option String, (∀ key, os.Getenv env2 key = os.Getenv env key) →
      utils.GetAppDataPath env2 fs filename = utils.GetAppDataPath env fs filename) := by
  refine ⟨?_, ?_, ?_, ?_, ?_⟩
  · intro ha hm
    have hd : utils.appDataDir env = filepath.Join [os.Getenv env "APPDATA", version.AppName] := by
      simp [utils.appDataDir, ha]
    obtain ⟨h1, h2⟩ := utils.GetAppDataPath_ok env fs filename _ hd hm
    refine ⟨?_, h2⟩
    rw [h1, filepath.Join_Join _ _ _ ha]
    rfl
  · intro ha hh hm
    have hd : utils.appDataDir env =
        filepath.Join [os.Getenv env "HOME", ".local", "share", version.AppName] := by
      simp [utils.appDataDir, ha, hh]
    obtain ⟨h1, h2⟩ := utils.GetAppDataPath_ok env fs filename _ hd hm
    refine ⟨?_, h2⟩
    rw [h1, filepath.Join_Join _ _ _ hh]
    rfl
  · intro ha hh hm
    have hd : utils.appDataDir env = version.AppName := by
      simp [utils.appDataDir, ha, hh]
    exact utils.GetAppDataPath_ok env fs filename _ hd hm
  · intro key hk
    rcases hk with hk | hk <;> simp [os.Getenv, hk]
  · intro env2 he
    have : utils.appDataDir env2 = utils.appDataDir env := by
      simp only [utils.appDataDir, he]
    simp only [utils.GetAppDataPath, this]

/-- C8 on a filesystem where none of the directories exists yet: with
`APPDATA` and `HOME` both set the path is under `APPDATA`; with `APPDATA`
set to the empty string it is under `HOME`; with neither set it is under the
bare application name; the call returns no error each time, and the
directory, which was not there before, is there afterwards. -/
theorem utils.GetAppDataPath_fallback_chain_witness :
    ((utils.GetAppDataPath sample.env sample.fs "logs").2 =
        ("/mnt/c/Users/X/AppData/Roaming/nightreign-overlay-helper/logs", none) ∧
      os.Stat sample.fs "/mnt/c/Users/X/AppData/Roaming/nightreign-overlay-helper"
        = Except.error GoError.ENOENT ∧
      ∃ t, os.Stat (utils.GetAppDataPath sample.env sample.fs "logs").1
        (filepath.Join [os.Getenv sample.env "APPDATA", version.AppName])
          = Except.ok ⟨t, true⟩) ∧
    ((utils.GetAppDataPath sample.envHome sample.fs "logs").2 =
        ("/home/x/.local/share/nightreign-overlay-helper/logs", none) ∧
      ∃ t, os.Stat (utils.GetAppDataPath sample.envHome sample.fs "logs").1
        (filepath.Join [os.Getenv sample.envHome "HOME", ".local", "share", version.AppName])
          = Except.ok ⟨t, true⟩) ∧
    ((utils.GetAppDataPath sample.envNone sample.fs "logs").2 =
        ("nightreign-overlay-helper/logs", none) ∧
      ∃ t, os.Stat (utils.GetAppDataPath sample.envNone sample.fs "logs").1 version.AppName
        = Except.ok ⟨t, true⟩) :=
  ⟨⟨(congrArg Prod.snd
        ((utils.GetAppDataPath_fallback_chain sample.env sample.fs "logs").1
          (by decide) (by decide)).1).trans (by decide),
      rfl,
      ((utils.GetAppDataPath_fallback_chain sample.env sample.fs "logs").1
        (by decide) (by decide)).2⟩,
    ⟨(congrArg Prod.snd
        ((utils.GetAppDataPath_fallback_chain sample.envHome sample.fs "logs").2.1
          (by decide) (by decide) (by decide)).1).trans (by decide),
      ((utils.GetAppDataPath_fallback_chain sample.envHome sample.fs "logs").2.1
        (by decide) (by decide) (by decide)).2⟩,
    ⟨(congrArg Prod.snd
        ((utils.GetAppDataPath_fallback_chain sample.envNone sample.fs "logs").2.2.1
          (by decide) (by decide) (by decide)).1).trans (by decide),
      ((utils.GetAppDataPath_fallback_chain sample.envNone sample.fs "logs").2.2.1
        (by decide) (by decide) (by decide)).2⟩⟩

/-! ## Filesystems given by a table of entries -/

namespace os

end os
/-! ## Filesystems without symbolic links -/

namespace os

theorem lexStep_stay (k : Key) (c : List Char) (h : c = [] ∨ c = ['.']) : lexStep k c = k := by
  rw [lexStep, if_pos h]

theorem lexStep_up (k : Key) : lexStep k ['.', '.'] = k.tail := by
  rw [lexStep, if_neg (by decide), if_pos rfl]

theorem lexStep_name (k : Key) (c : List Char) (h1 : ¬ (c = [] ∨ c = ['.']))
    (h2 : c ≠ ['.', '.']) : lexStep k c = c :: k := by
  rw [lexStep, if_neg h1, if_neg h2]

theorem lexKey_nil (k : Key) : lexKey k [] = k := rfl

theorem lexKey_cons (k : Key) (c : List Char) (rest : List (List Char)) :
    lexKey k (c :: rest) = lexKey (lexStep k c) rest := rfl

theorem lexKey_append (k : Key) (a b : List (List Char)) :
    lexKey k (a ++ b) = lexKey (lexKey k a) b := by
  unfold lexKey
  rw [List.foldl_append]

theorem lexKey_concat (k : Key) (a : List (List Char)) (c : List Char) :
    lexKey k (a ++ [c]) = lexStep (lexKey k a) c := by
  rw [lexKey_append]
  rfl

theorem allDirs_nil (fs : FS) (k : Key) : AllDirs fs k [] := trivial

theorem allDirs_cons (fs : FS) (k : Key) (c : List Char) (rest : List (List Char)) :
    AllDirs fs k (c :: rest) ↔
      (∃ t, fs.lookup k = some (Entry.dir t)) ∧ AllDirs fs (lexStep k c) rest := Iff.rfl

theorem allDirs_append (fs : FS) :
    ∀ (a b : List (List Char)) (k : Key),
      AllDirs fs k (a ++ b) ↔ AllDirs fs k a ∧ AllDirs fs (lexKey k a) b
  | [], b, k => by simp [allDirs_nil, lexKey_nil]
  | c :: a, b, k => by
    rw [List.cons_append, allDirs_cons, allDirs_cons, lexKey_cons, allDirs_append fs a b]
    exact and_assoc.symm

theorem allDirs_concat (fs : FS) (a : List (List Char)) (c : List Char) (k : Key) :
    AllDirs fs k (a ++ [c]) ↔
      AllDirs fs k a ∧ ∃ t, fs.lookup (lexKey k a) = some (Entry.dir t) := by
  rw [allDirs_append, allDirs_cons]
  simp [allDirs_nil]

theorem lookup_ne_symlink (fs : FS) (h : fs.NoSymlinks) (k : Key) (tg : String) :
    fs.lookup k ≠ some (Entry.symlink tg) := h k tg

/-- Without symbolic links one step of a walk from a directory goes where
the name says. -/
theorem walk_step (fs : FS) (h : fs.NoSymlinks) (f : Bool) (cur : Key) (c : List Char)
    (rest : List (List Char)) (t : Nat) (hd : fs.lookup cur = some (Entry.dir t)) :
    walk fs f cur (c :: rest) = walk fs f (lexStep cur c) rest := by
  by_cases h1 : c = [] ∨ c = ['.']
  · rw [walk_cons_stay fs f cur c rest t hd h1, lexStep_stay cur c h1]
  · by_cases h2 : c = ['.', '.']
    · subst h2
      rw [walk_cons_up fs f cur rest t hd, lexStep_up]
    · rw [walk_cons_down fs f cur c rest t hd h1 h2 (fun tg => lookup_ne_symlink fs h _ tg),
        lexStep_name cur c h1 h2]

/-- Without symbolic links a walk through directories that are there ends
where the names say. -/
theorem walk_of_allDirs (fs : FS) (h : fs.NoSymlinks) (f : Bool) :
    ∀ (comps : List (List Char)) (cur : Key), AllDirs fs cur comps →
      walk fs f cur comps = Walk.found (lexKey cur comps) (fs.lookup (lexKey cur comps))
  | [], cur, _ => by rw [walk_nil, lexKey_nil]
  | c :: rest, cur, ha => by
    obtain ⟨⟨t, ht⟩, hr⟩ := (allDirs_cons fs cur c rest).mp ha
    rw [walk_step fs h f cur c rest t ht, lexKey_cons]
    exact walk_of_allDirs fs h f rest _ hr

/-- Without symbolic links a walk fails when a directory on the way is not
there. -/
theorem walk_of_not_allDirs (fs : FS) (h : fs.NoSymlinks) (f : Bool) :
    ∀ (comps : List (List Char)) (cur : Key), ¬ AllDirs fs cur comps →
      ∃ e, walk fs f cur comps = Walk.fail e
  | [], cur, ha => absurd (allDirs_nil fs cur) ha
  | c :: rest, cur, ha => by
    by_cases hd : ∃ t, fs.lookup cur = some (Entry.dir t)
    · obtain ⟨t, ht⟩ := hd
      rw [walk_step fs h f cur c rest t ht]
      exact walk_of_not_allDirs fs h f rest _
        (fun hr => ha ((allDirs_cons fs cur c rest).mpr ⟨⟨t, ht⟩, hr⟩))
    · exact walk_cons_fail fs f cur c rest (fun t ht => hd ⟨t, ht⟩)

theorem resolve_of_allDirs (fs : FS) (h : fs.NoSymlinks) (f : Bool) (path : String)
    (ha : AllDirs fs (fs.start path) (filepath.splitSep path.data)) :
    resolve fs f path =
      Walk.found (lexKey (fs.start path) (filepath.splitSep path.data))
        (fs.lookup (lexKey (fs.start path) (filepath.splitSep path.data))) := by
  unfold resolve
  exact resolveFrom_of_found fs f 40 _ _ _ _ (walk_of_allDirs fs h f _ _ ha)

theorem resolve_of_not_allDirs (fs : FS) (h : fs.NoSymlinks) (f : Bool) (path : String)
    (ha : ¬ AllDirs fs (fs.start path) (filepath.splitSep path.data)) :
    ∃ e, resolve fs f path = Walk.fail e := by
  obtain ⟨e, he⟩ := walk_of_not_allDirs fs h f _ _ ha
  exact ⟨e, by unfold resolve; exact resolveFrom_of_fail fs f 40 _ _ e he⟩

end os
/-! ## What `MkdirAll` changes -/

namespace os

theorem Grown.trans {a b c : FS} (h1 : Grown a b) (h2 : Grown b c) : Grown a c := by
  refine ⟨fun k => ?_, h2.files.trans h1.files, h2.nextIno.trans h1.nextIno,
    h2.cwd.trans h1.cwd⟩
  rcases h2.lookup k with h | ⟨hn, t, ht⟩
  · rw [h]
    exact h1.lookup k
  · rcases h1.lookup k with h | ⟨hn1, _⟩
    · exact Or.inr ⟨by rw [← h]; exact hn, t, ht⟩
    · exact Or.inr ⟨hn1, t, ht⟩

theorem Grown.start {a b : FS} (h : Grown a b) (path : String) : b.start path = a.start path := by
  unfold FS.start
  rw [h.cwd]

theorem Grown.dir {a b : FS} (h : Grown a b) (k : Key) (t : Nat)
    (hd : a.lookup k = some (Entry.dir t)) : b.lookup k = some (Entry.dir t) := by
  rcases h.lookup k with h1 | ⟨hn, _⟩
  · rw [h1, hd]
  · rw [hd] at hn
    cases hn

theorem Grown.setEntry (fs : FS) (k : Key) (t : Nat) (h : fs.lookup k = none) :
    Grown fs (fs.setEntry k (some (Entry.dir t))) := by
  have hne := ne_nil_of_lookup_none fs k h
  refine ⟨fun q => ?_, rfl, rfl, rfl⟩
  by_cases hq : q = k
  · subst hq
    exact Or.inr ⟨h, t, lookup_setEntry_self fs q _ hne⟩
  · exact Or.inl (lookup_setEntry_of_ne fs k _ q hq)

end os
namespace os

theorem start_dir (fs : FS) (h : fs.WellFormed) (path : String) :
    ∃ t, fs.lookup (fs.start path) = some (Entry.dir t) := by
  unfold FS.start
  split_ifs
  · exact ⟨0, lookup_nil fs⟩
  · exact h.cwdDir

/-- The parent of a directory is a directory. -/
theorem dir_tail (fs : FS) (h : fs.WellFormed) (q : Key)
    (hd : ∃ t, fs.lookup q = some (Entry.dir t)) : ∃ t, fs.lookup q.tail = some (Entry.dir t) := by
  cases q with
  | nil => exact hd
  | cons c p =>
    obtain ⟨t, ht⟩ := hd
    exact h.parentDir c p (by rw [ht]; simp)

end os
/-! ## Cleaning a path and walking along it -/

namespace os

theorem lexKey_stays (k : Key) :
    ∀ lead : List (List Char), (∀ c ∈ lead, c = [] ∨ c = ['.']) → lexKey k lead = k
  | [], _ => rfl
  | c :: rest, h => by
    rw [lexKey_cons, lexStep_stay k c (h c (List.mem_cons_self _ _))]
    exact lexKey_stays k rest (fun d hd => h d (List.mem_cons_of_mem _ hd))

theorem lexStep_plain (k : Key) (c : List Char) (h : filepath.Plain c) : lexStep k c = c :: k :=
  lexStep_name k c (fun h1 => h1.elim h.1 h.2.1) h.2.2.1

theorem lexKey_names :
    ∀ (names : List (List Char)) (base : Key), (∀ c ∈ names, filepath.Plain c) →
      lexKey base names = names.reverse ++ base
  | [], base, _ => rfl
  | c :: rest, base, h => by
    rw [lexKey_cons, lexStep_plain base c (h c (List.mem_cons_self _ _)),
      lexKey_names rest (c :: base) (fun d hd => h d (List.mem_cons_of_mem _ hd))]
    simp

/-- One round of `Clean` moves the place the written elements lead to the way
the element does. -/
theorem lexKey_cleanStep (st : Key) (rooted : Bool) (hst : rooted = true → st = [])
    (out : List (List Char)) (c : List Char) (h : filepath.Canon rooted out) :
    lexKey st (filepath.cleanStep rooted out c).reverse = lexStep (lexKey st out.reverse) c := by
  unfold filepath.cleanStep
  by_cases h0 : c = []
  · rw [if_pos h0, lexStep_stay _ c (Or.inl h0)]
  · rw [if_neg h0]
    by_cases h1 : c = ['.']
    · rw [if_pos h1, lexStep_stay _ c (Or.inr h1)]
    · rw [if_neg h1]
      by_cases h2 : c = ['.', '.']
      · rw [if_pos h2, h2, lexStep_up]
        cases out with
        | nil =>
          simp only [filepath.canBacktrack, Bool.false_eq_true, if_false]
          cases rooted with
          | false =>
            simp only [Bool.not_false, if_true, List.reverse_cons, List.reverse_nil,
              List.nil_append]
            rw [lexKey_cons, lexStep_up]
            rfl
          | true =>
            rw [hst rfl]
            rfl
        | cons top rest =>
          by_cases hb : filepath.canBacktrack (top :: rest) = true
          · rw [if_pos hb]
            have htop : top ≠ ['.', '.'] := by simpa [filepath.canBacktrack] using hb
            have hp : filepath.Plain top := by
              rcases h.2 with hp | ⟨hd, _, _⟩
              · exact hp
              · exact absurd hd htop
            rw [List.tail_cons, List.reverse_cons, lexKey_concat, lexStep_plain _ top hp,
              List.tail_cons]
          · rw [if_neg hb]
            have htop : top = ['.', '.'] := by simpa [filepath.canBacktrack] using hb
            have hr : rooted = false := by
              rcases h.2 with hp | ⟨_, hr, _⟩
              · exact absurd htop hp.2.2.1
              · exact hr
            subst hr
            simp only [Bool.not_false, if_true]
            rw [List.reverse_cons, lexKey_concat, lexStep_up]
      · rw [if_neg h2, List.reverse_cons, lexKey_concat]

theorem lexKey_foldl_cleanStep (st : Key) (rooted : Bool) (hst : rooted = true → st = []) :
    ∀ (comps out : List (List Char)), filepath.Canon rooted out → (∀ e ∈ comps, '/' ∉ e) →
      lexKey st (comps.foldl (filepath.cleanStep rooted) out).reverse =
        lexKey st (out.reverse ++ comps)
  | [], out, _, _ => by simp
  | c :: rest, out, h, hs => by
    rw [List.foldl_cons, lexKey_foldl_cleanStep st rooted hst rest _
      (filepath.cleanStep_canon rooted out c h (hs c (List.mem_cons_self _ _)))
      (fun e he => hs e (List.mem_cons_of_mem _ he)),
      lexKey_append, lexKey_cleanStep st rooted hst out c h, lexKey_append, lexKey_cons]

/-- The elements `Clean` keeps lead where the elements of the path lead. -/
theorem lexKey_cleanElems (st : Key) (u : List Char)
    (hst : filepath.isRooted u = true → st = []) :
    lexKey st (filepath.cleanElems u).reverse = lexKey st (filepath.splitSep u) := by
  rw [filepath.cleanElems_def,
    lexKey_foldl_cleanStep st _ hst (filepath.splitSep u) [] trivial
      (filepath.splitSep_mem_noSep u)]
  rfl

end os

namespace filepath

/-- The elements of the text `Clean` returns: the elements written, after
an empty element or `.` at most. -/
theorem splitSep_render (rooted : Bool) (out : List (List Char)) (h : Canon rooted out) :
    ∃ lead, (∀ c ∈ lead, c = [] ∨ c = ['.']) ∧
      splitSep (render rooted out) = lead ++ out.reverse := by
  have hsep : ∀ e ∈ out.reverse, '/' ∉ e := fun e he => Canon.noSep h e (List.mem_reverse.mp he)
  unfold render
  cases rooted with
  | true =>
    simp only [if_true]
    by_cases ho : out = []
    · subst ho
      exact ⟨[[], []], by simp, rfl⟩
    · refine ⟨[[]], by simp, ?_⟩
      rw [splitSep, if_pos rfl, splitSep_joinSep out.reverse (by simpa using ho) hsep]
      rfl
  | false =>
    simp only [Bool.false_eq_true, if_false]
    by_cases ho : out = []
    · subst ho
      exact ⟨[['.']], by simp, rfl⟩
    · rw [if_neg ho]
      exact ⟨[], by simp, by rw [splitSep_joinSep out.reverse (by simpa using ho) hsep]; rfl⟩

/-- The elements `Clean` has written are names on top of `..` elements. -/
theorem Canon.split {rooted : Bool} :
    ∀ {out : List (List Char)}, Canon rooted out →
      ∃ names dots, out = names ++ dots ∧ (∀ c ∈ names, Plain c) ∧
        (∀ c ∈ dots, c = ['.', '.'])
  | [], _ => ⟨[], [], rfl, by simp, by simp⟩
  | top :: rest, h => by
    obtain ⟨names, dots, hr, hn, hd⟩ := Canon.split h.1
    rcases h.2 with hp | ⟨htop, _, hb⟩
    · refine ⟨top :: names, dots, by rw [hr]; rfl, ?_, hd⟩
      intro c hc
      rcases List.mem_cons.mp hc with rfl | hc
      · exact hp
      · exact hn c hc
    · cases names with
      | nil =>
        refine ⟨[], top :: dots, by rw [hr]; rfl, by simp, ?_⟩
        intro c hc
        rcases List.mem_cons.mp hc with rfl | hc
        · exact htop
        · exact hd c hc
      | cons n ns =>
        rw [hr] at hb
        have : n = ['.', '.'] := by simpa [canBacktrack] using hb
        exact absurd this (hn n (List.mem_cons_self _ _)).2.2.1

end filepath
/-! ## The directory of a path -/

namespace os

/-- The elements of `Dir(path)`: elements that stay or go up, then names;
they lead where the elements of the path before the last one lead. -/
theorem Dir_ladder (fs : FS) (path : String) :
    ∃ init l lead names, '/' ∉ l ∧
      (∀ w, '/' ∉ w → filepath.splitSep (path.data ++ w) = init ++ [l ++ w]) ∧
      filepath.splitSep (filepath.Dir path).data = lead ++ names ∧
      (∀ c ∈ lead, c = [] ∨ c = ['.'] ∨ c = ['.', '.']) ∧
      (∀ c ∈ names, filepath.Plain c) ∧
      fs.start (filepath.Dir path) = fs.start path ∧
      lexKey (fs.start path) (lead ++ names) = lexKey (fs.start path) init := by
  obtain ⟨init, l, hl, hs, hw, hcase⟩ := filepath.split_last path.data
  rcases hcase with ⟨hu, hi⟩ | ⟨hu, hsu, hru⟩
  · subst hi
    have hd : filepath.Dir path = "." := by
      unfold filepath.Dir
      rw [hu]
      rfl
    have hr : filepath.isRooted path.data = false := by
      rw [hu, List.nil_append] at hs
      rw [hs]
      exact filepath.isRooted_of_noSep l hl
    refine ⟨[], l, [['.']], [], hl, hw, by rw [hd]; rfl, by simp, by simp, ?_, rfl⟩
    unfold FS.start
    rw [hd, hr]
    rfl
  · have hc := filepath.cleanElems_canon (filepath.upToLastSep path.data)
    have hd : (filepath.Dir path).data =
        filepath.render (filepath.isRooted (filepath.upToLastSep path.data))
          (filepath.cleanElems (filepath.upToLastSep path.data)) := by
      unfold filepath.Dir
      rw [filepath.Clean_of_data _ hu]
    obtain ⟨lead0, hl0, hsr⟩ := filepath.splitSep_render _ _ hc
    obtain ⟨names, dots, hnd, hn, hdt⟩ := filepath.Canon.split hc
    have hstart : fs.start (filepath.Dir path) = fs.start path := by
      unfold FS.start
      rw [hd, filepath.isRooted_render _ _ hc, hru]
    have hst : filepath.isRooted (filepath.upToLastSep path.data) = true →
        fs.start path = [] := by
      intro h
      unfold FS.start
      rw [← hru, h]
      rfl
    refine ⟨init, l, lead0 ++ dots.reverse, names.reverse, hl, hw, ?_, ?_, ?_, hstart, ?_⟩
    · rw [hd, hsr, hnd, List.reverse_append, List.append_assoc]
    · intro c hc2
      rcases List.mem_append.mp hc2 with h1 | h1
      · rcases hl0 c h1 with h2 | h2
        · exact Or.inl h2
        · exact Or.inr (Or.inl h2)
      · exact Or.inr (Or.inr (hdt c (List.mem_reverse.mp h1)))
    · intro c hc2
      exact hn c (List.mem_reverse.mp hc2)
    · have e1 : (lead0 ++ dots.reverse) ++ names.reverse =
          lead0 ++ (filepath.cleanElems (filepath.upToLastSep path.data)).reverse := by
        rw [hnd, List.reverse_append, List.append_assoc]
      rw [e1, lexKey_append, lexKey_stays _ lead0 hl0, lexKey_cleanElems _ _ hst, hsu,
        lexKey_concat, lexStep_stay _ [] (Or.inl rfl)]

/-- Elements that stay or go up lead from a directory through
directories. -/
theorem lead_dirs (fs : FS) (hwf : fs.WellFormed) :
    ∀ (lead : List (List Char)) (st : Key), (∃ t, fs.lookup st = some (Entry.dir t)) →
      (∀ c ∈ lead, c = [] ∨ c = ['.'] ∨ c = ['.', '.']) →
      AllDirs fs st lead ∧ ∃ t, fs.lookup (lexKey st lead) = some (Entry.dir t)
  | [], st, hd, _ => ⟨trivial, hd⟩
  | c :: rest, st, hd, h => by
    have hstep : ∃ t, fs.lookup (lexStep st c) = some (Entry.dir t) := by
      rcases h c (List.mem_cons_self _ _) with h1 | h1 | h1
      · rw [lexStep_stay st c (Or.inl h1)]
        exact hd
      · rw [lexStep_stay st c (Or.inr h1)]
        exact hd
      · rw [h1, lexStep_up]
        exact dir_tail fs hwf st hd
    obtain ⟨h1, h2⟩ := lead_dirs fs hwf rest (lexStep st c) hstep
      (fun d hd2 => h d (List.mem_cons_of_mem _ hd2))
    exact ⟨(allDirs_cons fs st c rest).mpr ⟨hd, h1⟩, h2⟩

/-- What a directory lies in is a directory. -/
theorem dir_suffix (fs : FS) (hwf : fs.WellFormed) :
    ∀ (l q : Key), (∃ t, fs.lookup (l ++ q) = some (Entry.dir t)) →
      ∃ t, fs.lookup q = some (Entry.dir t)
  | [], _, h => h
  | c :: l, q, h => dir_suffix fs hwf l q (dir_tail fs hwf (c :: l ++ q) h)

/-- Names that lead to a directory lead through directories. -/
theorem names_dirs (fs : FS) (hwf : fs.WellFormed) :
    ∀ (names : List (List Char)) (base : Key), (∀ c ∈ names, filepath.Plain c) →
      (∃ t, fs.lookup (names.reverse ++ base) = some (Entry.dir t)) → AllDirs fs base names
  | [], base, _, _ => trivial
  | n :: rest, base, hn, hd => by
    refine (allDirs_cons fs base n rest).mpr ⟨dir_suffix fs hwf _ base hd, ?_⟩
    rw [lexStep_plain base n (hn n (List.mem_cons_self _ _))]
    refine names_dirs fs hwf rest (n :: base) (fun d hd2 => hn d (List.mem_cons_of_mem _ hd2)) ?_
    rw [List.reverse_cons, List.append_assoc] at hd
    exact hd

/-- A ladder that leads to a directory leads through directories. -/
theorem ladder_dirs (fs : FS) (hwf : fs.WellFormed) (st : Key) (lead names : List (List Char))
    (hst : ∃ t, fs.lookup st = some (Entry.dir t))
    (hl : ∀ c ∈ lead, c = [] ∨ c = ['.'] ∨ c = ['.', '.'])
    (hn : ∀ c ∈ names, filepath.Plain c)
    (hd : ∃ t, fs.lookup (lexKey st (lead ++ names)) = some (Entry.dir t)) :
    AllDirs fs st (lead ++ names) := by
  obtain ⟨h1, _⟩ := lead_dirs fs hwf lead st hst hl
  refine (allDirs_append fs lead names st).mpr ⟨h1, ?_⟩
  rw [lexKey_append, lexKey_names names _ hn] at hd
  exact names_dirs fs hwf names _ hn hd

/-- When the elements of a path before the last one lead to a directory,
`Stat` finds that directory at `Dir(path)`. -/
theorem Stat_Dir_of_dir (fs : FS) (hwf : fs.WellFormed) (hns : fs.NoSymlinks) (path : String)
    (init lead names : List (List Char))
    (hlad : filepath.splitSep (filepath.Dir path).data = lead ++ names)
    (hlead : ∀ c ∈ lead, c = [] ∨ c = ['.'] ∨ c = ['.', '.'])
    (hnames : ∀ c ∈ names, filepath.Plain c)
    (hstartD : fs.start (filepath.Dir path) = fs.start path)
    (hkey : lexKey (fs.start path) (lead ++ names) = lexKey (fs.start path) init)
    (t : Nat) (ht : fs.lookup (lexKey (fs.start path) init) = some (Entry.dir t)) :
    Stat fs (filepath.Dir path) = Except.ok ⟨t, true⟩ := by
  have hall : AllDirs fs (fs.start path) (lead ++ names) :=
    ladder_dirs fs hwf _ lead names (start_dir fs hwf path) hlead hnames
      (by rw [hkey]; exact ⟨t, ht⟩)
  have hres := resolve_of_allDirs fs hns true (filepath.Dir path)
    (by rw [hstartD, hlad]; exact hall)
  rw [hstartD, hlad, hkey] at hres
  have hne : filepath.Dir path ≠ "" := filepath.Clean_ne_empty _
  unfold Stat statWith
  rw [if_neg hne, hres, ht]
  rfl

end os
/-! ## Where `MkdirAll` makes directories -/

namespace os

/-- The parent `MkdirAll` goes on with is shorter than the path. -/
theorem parentOf_length (path : String) (hp : parentOf path ≠ "") :
    (parentOf path).length < path.length := by
  obtain ⟨m, hm⟩ := filepath.dropTrailingSep_append path.data
  obtain ⟨l, _, hs, hu⟩ := filepath.upToLastSep_split (filepath.dropTrailingSep path.data)
  have hd : (parentOf path).data =
      filepath.upToLastSep (filepath.dropTrailingSep path.data) := rfl
  have h1 : (parentOf path).length =
      (filepath.upToLastSep (filepath.dropTrailingSep path.data)).length := by
    rw [← hd]
    rfl
  have h2 : path.length = (filepath.upToLastSep (filepath.dropTrailingSep path.data)).length
      + l.length + m := by
    have := congrArg List.length hm
    rw [List.length_append, List.length_replicate] at this
    have h3 := congrArg List.length hs
    rw [List.length_append] at h3
    show path.data.length = _
    omega
  rw [h1, h2]
  by_contra hc
  have hl : l = [] := List.eq_nil_of_length_eq_zero (by omega)
  rw [hl, List.append_nil] at hs
  rcases hu with hu | ⟨u, hu⟩
  · apply hp
    unfold parentOf
    rw [hu]
  · rw [hu] at hs
    unfold filepath.dropTrailingSep at hs
    have h4 := congrArg List.reverse hs
    rw [List.reverse_reverse, List.reverse_append, List.reverse_singleton,
      List.singleton_append] at h4
    have := filepath.dropWhile_head_not _ _ _ _ h4
    simp at this

/-- More fuel than the length of the path does not change what `MkdirAll`
does: the recursion ends before the fuel does. -/
theorem mkdirAll_fuel : ∀ (n m : Nat) (fs : FS) (path : String),
    path.length < n → path.length < m → mkdirAll fs n path = mkdirAll fs m path
  | 0, _, _, _, h, _ => absurd h (Nat.not_lt_zero _)
  | _ + 1, 0, _, _, _, h => absurd h (Nat.not_lt_zero _)
  | n + 1, m + 1, fs, path, hn, hm => by
    rw [mkdirAll, mkdirAll]
    by_cases hp : parentOf path = ""
    · rw [if_neg (not_not.mpr hp), if_neg (not_not.mpr hp)]
    · have hl := parentOf_length path hp
      rw [if_pos hp, if_pos hp,
        mkdirAll_fuel n m fs (parentOf path) (by omega) (by omega)]

end os
/-! ## Writing, renaming and removing a file -/

namespace os

theorem resolve_last_fail (s : FS) (hns : s.NoSymlinks) (f : Bool) (q : String) (st : Key)
    (init : List (List Char)) (x : List Char) (hst : s.start q = st)
    (hq : filepath.splitSep q.data = init ++ [x])
    (hD : ¬ (AllDirs s st init ∧ ∃ t, s.lookup (lexKey st init) = some (Entry.dir t))) :
    ∃ e, resolve s f q = Walk.fail e :=
  resolve_of_not_allDirs s hns f q
    (by rw [hst, hq]; exact fun h => hD ((allDirs_concat s init x st).mp h))

/-- `WriteFile` under a name that cannot be resolved fails and changes
nothing. -/
theorem WriteFile_unresolved (fs : FS) (name data : String) (e : GoError)
    (h : resolve fs true name = Walk.fail e) :
    (WriteFile fs name data).2 ≠ none ∧ (WriteFile fs name data).1 = fs := by
  unfold WriteFile
  by_cases hn : name = ""
  · rw [if_pos hn]
    exact ⟨by simp, rfl⟩
  · rw [if_neg hn, h]
    exact ⟨by simp, rfl⟩

end os
namespace os

end os
namespace os

theorem start_tmp (fs : FS) (path : String) : fs.start (path ++ ".tmp") = fs.start path := by
  unfold FS.start
  rw [String.data_append, filepath.isRooted_append path.data ".tmp".data rfl]

end os

namespace os

end os

namespace os

/-- Without symbolic links, when `Stat` does not find `Dir(path)`, the name
`path + ".tmp"` cannot be resolved. -/
theorem resolve_tmp_fail (fs : FS) (hwf : fs.WellFormed) (hns : fs.NoSymlinks) (path : String)
    (e : GoError) (h : Stat fs (filepath.Dir path) = Except.error e) :
    ∃ e2, resolve fs true (path ++ ".tmp") = Walk.fail e2 := by
  obtain ⟨init, l, lead, names, _, hsplit, hlad, hlead, hnames, hstartD, hkey⟩ :=
    Dir_ladder fs path
  have hq_t : filepath.splitSep (path ++ ".tmp").data = init ++ [l ++ ".tmp".data] := by
    rw [String.data_append]
    exact hsplit _ (by decide)
  refine resolve_last_fail fs hns true (path ++ ".tmp") _ init _ (start_tmp fs path) hq_t ?_
  rintro ⟨_, t, ht⟩
  rw [Stat_Dir_of_dir fs hwf hns path init lead names hlad hlead hnames hstartD hkey t ht] at h
  cases h

end os

/-- C4 (what the code does): `Save` is `SaveYAML` without the call of
`MkdirAll`.  The two agree whenever that call changes nothing and succeeds.
When the directory the temporary file goes into is not there (the name of
the temporary file cannot be resolved; without symbolic links: `Stat` does
not find `Dir(path)`), `Save` returns an error and leaves the filesystem as
it was: on a path whose parent directory does not exist, `SaveYAML` creates
the directory and writes the file, and `Save` fails with `ENOENT` and writes
nothing. -/
theorem config.Save_skips_MkdirAll :
    (∀ (Config : Type) (codec : yaml.Codec Config) (fs : os.FS) (path : String) (cfg : Config),
      os.MkdirAll fs (filepath.Dir path) = (fs, none) →
      config.Save codec fs path cfg = utils.SaveYAML codec fs path cfg) ∧
    (∀ (Config : Type) (codec : yaml.Codec Config) (fs : os.FS) (path : String) (cfg : Config)
      (e : GoError), os.resolve fs true (path ++ ".tmp") = os.Walk.fail e →
      (config.Save codec fs path cfg).2 ≠ none ∧ (config.Save codec fs path cfg).1 = fs) ∧
    (∀ (Config : Type) (codec : yaml.Codec Config) (fs : os.FS) (path : String) (cfg : Config)
      (e : GoError), fs.WellFormed → fs.NoSymlinks →
      os.Stat fs (filepath.Dir path) = Except.error e →
      (config.Save codec fs path cfg).2 ≠ none ∧ (config.Save codec fs path cfg).1 = fs) ∧
    os.Stat sample.fs "conf" = Except.error GoError.ENOENT ∧
    (utils.SaveYAML sample.codec sample.fs "conf/app.yaml" "time_scale: 3").2 = none ∧
    (utils.SaveYAML sample.codec sample.fs "conf/app.yaml" "time_scale: 3").1.fileAt
      "conf/app.yaml" = some "time_scale: 3" ∧
    (config.Save sample.codec sample.fs "conf/app.yaml" "time_scale: 3").2
      = some GoError.ENOENT ∧
    (config.Save sample.codec sample.fs "conf/app.yaml" "time_scale: 3").1.fileAt
      "conf/app.yaml" = none ∧
    os.Stat (config.Save sample.codec sample.fs "conf/app.yaml" "time_scale: 3").1 "conf"
      = Except.error GoError.ENOENT := by
  have hfail : ∀ (Config : Type) (codec : yaml.Codec Config) (fs : os.FS) (path : String)
      (cfg : Config) (e : GoError), os.resolve fs true (path ++ ".tmp") = os.Walk.fail e →
      (config.Save codec fs path cfg).2 ≠ none ∧ (config.Save codec fs path cfg).1 = fs := by
    intro Config codec fs path cfg e h
    unfold config.Save
    cases hM : codec.Marshal cfg with
    | error err => exact ⟨by simp, rfl⟩
    | ok data =>
      simp only
      obtain ⟨h1, h2⟩ := os.WriteFile_unresolved fs (path ++ ".tmp") data e h
      rcases hw : os.WriteFile fs (path ++ ".tmp") data with ⟨fs1, e1⟩
      rw [hw] at h1 h2
      cases e1 with
      | none => exact absurd rfl h1
      | some err => exact ⟨by simp, h2⟩
  refine ⟨?_, hfail, ?_, rfl, by decide, by decide, by decide, by decide, rfl⟩
  · intro Config codec fs path cfg h
    simp only [config.Save, utils.SaveYAML, h]
  · intro Config codec fs path cfg e hwf hns h
    obtain ⟨e2, he2⟩ := os.resolve_tmp_fail fs hwf hns path e h
    exact hfail Config codec fs path cfg e2 he2

/-! ## The atomic writer -/

